import Mathlib

/-!
# torch2grid — tensor-to-grid transformation core, shallow embedding

This file embeds the tensor-to-grid subsystem of the `torch2grid`
repository (`src/torch2grid/plugins/builtin.py`,
`src/torch2grid/plugins/registry.py`, `src/torch2grid/plugins/base.py`,
`src/torch2grid/transformer.py`) and proves the specification claims
about it.

Modelling choices:
* Scalar values are rationals (`ℚ`).  The Python code computes with
  floats, but every claim under study is about placement, ordering and
  exact branch behaviour, not rounding.
* A tensor is modelled by its row-major flattened scalar list
  (`List ℚ`): every transform uses a tensor only through
  `arr.flatten()` (row-major) and `arr.size`, so the shape is
  irrelevant to the embedded code.
* A `TensorCollection` is an ordered association list
  `List (String × Option (List ℚ))`; Python dicts iterate in insertion
  order, and `None` values (“absent”) are `none`.
* A grid is a `List (List ℚ)`.  `np.zeros((r, c))` is a list of `r`
  rows of `c` zeros; the element assignments `grid[r, c] = v` of the
  Python loops are modelled by `gridSet`, and each loop is modelled by
  folding `gridSet` over the list of (row, col, value) assignments the
  loop performs, in order.
* `int(np.ceil(np.sqrt(n)))` is modelled by the exact integer
  ⌈√n⌉ (`ceilSqrt`).
-/

namespace Torch2Grid

/-- Scalar values of tensors and grid cells. -/
abbrev Val := ℚ

/-- A tensor, by its row-major flattened scalars. -/
abbrev Tensor := List Val

/-- Ordered mapping from layer name to tensor-or-absent
(a Python dict in insertion order; `none` is an absent value). -/
abbrev TensorCollection := List (String × Option Tensor)

/-- A 2D grid, as a list of rows. -/
abbrev Grid := List (List Val)

/-- `int(np.ceil(np.sqrt(n)))`: the least `S` with `n ≤ S * S`
(computed by ascending search so that concrete instances evaluate). -/
def ceilSqrt (n : Nat) : Nat :=
  ((List.range (n + 1)).find? (fun s => n ≤ s * s)).getD n

/-- `np.zeros((rows, cols))`. -/
def zerosGrid (rows cols : Nat) : Grid :=
  List.replicate rows (List.replicate cols 0)

/-- Reading cell `(r, c)` of a grid (out-of-range reads as `0`;
the embedded code only reads in range). -/
def gridGet (g : Grid) (r c : Nat) : Val :=
  (g.getD r []).getD c 0

/-- The Python element assignment `grid[r, c] = v`. -/
def gridSet (g : Grid) (r c : Nat) (v : Val) : Grid :=
  g.set r ((g.getD r []).set c v)

/-- A sequence of element assignments `grid[r, c] = v`, applied in
order. -/
def applyPlaces (g : Grid) (ps : List (Nat × Nat × Val)) : Grid :=
  ps.foldl (fun g p => gridSet g p.1 p.2.1 p.2.2) g

/-- The cells an assignment list touches. -/
def placeCells (ps : List (Nat × Nat × Val)) : List (Nat × Nat) :=
  ps.map (fun p => (p.1, p.2.1))

/-- `flat_values` accumulation common to Flatten / Spiral / Normalized:
skip absent tensors, concatenate flattened scalars in collection
order. -/
def flatValues (tc : TensorCollection) : List Val :=
  (tc.filterMap Prod.snd).flatten

/-! ## Grid update lemmas -/

theorem gridSet_length (g : Grid) (r c : Nat) (v : Val) :
    (gridSet g r c v).length = g.length := by
  simp [gridSet]

theorem gridSet_row_ne (g : Grid) (r c : Nat) (v : Val) (r' : Nat) (hne : r ≠ r') :
    (gridSet g r c v).getD r' [] = g.getD r' [] := by
  simp [gridSet, List.getD_eq_getElem?_getD, List.getElem?_set_ne hne]

theorem gridSet_row_self (g : Grid) (r c : Nat) (v : Val) (hr : r < g.length) :
    (gridSet g r c v).getD r [] = (g.getD r []).set c v := by
  simp [gridSet, List.getD_eq_getElem?_getD, List.getElem?_set_self hr]

theorem gridSet_oob (g : Grid) (r c : Nat) (v : Val) (hr : g.length ≤ r) :
    gridSet g r c v = g := by
  simp [gridSet, List.set_eq_of_length_le hr]

theorem gridSet_row_length (g : Grid) (r c : Nat) (v : Val) (r' : Nat) :
    ((gridSet g r c v).getD r' []).length = (g.getD r' []).length := by
  rcases eq_or_ne r r' with rfl | hne
  · by_cases h : r < g.length
    · rw [gridSet_row_self g r c v h]; simp
    · rw [gridSet_oob g r c v (by omega)]
  · rw [gridSet_row_ne g r c v r' hne]

theorem gridGet_gridSet_ne (g : Grid) (r c : Nat) (v : Val) (r' c' : Nat)
    (h : r' ≠ r ∨ c' ≠ c) : gridGet (gridSet g r c v) r' c' = gridGet g r' c' := by
  unfold gridGet
  rcases eq_or_ne r r' with rfl | hne
  · have hc : c ≠ c' := by tauto
    by_cases hr : r < g.length
    · rw [gridSet_row_self g r c v hr]
      simp [List.getD_eq_getElem?_getD, List.getElem?_set_ne hc]
    · rw [gridSet_oob g r c v (by omega)]
  · rw [gridSet_row_ne g r c v r' hne]

theorem gridGet_gridSet_self (g : Grid) (r c : Nat) (v : Val)
    (hr : r < g.length) (hc : c < (g.getD r []).length) :
    gridGet (gridSet g r c v) r c = v := by
  unfold gridGet
  rw [gridSet_row_self g r c v hr]
  simp only [List.getD_eq_getElem?_getD] at hc ⊢
  simp [List.getElem?_set_self hc]

theorem applyPlaces_length (g : Grid) (ps : List (Nat × Nat × Val)) :
    (applyPlaces g ps).length = g.length := by
  induction ps generalizing g with
  | nil => rfl
  | cons p ps ih => simp [applyPlaces] at ih ⊢; rw [ih, gridSet_length]

theorem applyPlaces_row_length (g : Grid) (ps : List (Nat × Nat × Val)) (r : Nat) :
    ((applyPlaces g ps).getD r []).length = (g.getD r []).length := by
  induction ps generalizing g with
  | nil => rfl
  | cons p ps ih => simp only [applyPlaces, List.foldl_cons] at ih ⊢
                    rw [ih, gridSet_row_length]

/-- A cell no assignment touches keeps its value. -/
theorem applyPlaces_untouched (g : Grid) (ps : List (Nat × Nat × Val)) (r c : Nat)
    (h : (r, c) ∉ placeCells ps) :
    gridGet (applyPlaces g ps) r c = gridGet g r c := by
  induction ps generalizing g with
  | nil => rfl
  | cons p ps ih =>
      simp only [placeCells, List.map_cons, List.mem_cons, not_or] at h
      simp only [applyPlaces, List.foldl_cons] at ih ⊢
      rw [ih _ (by simpa [placeCells] using h.2)]
      apply gridGet_gridSet_ne
      by_contra hcon
      push_neg at hcon
      exact h.1 (by simp [hcon.1, hcon.2])

theorem applyPlaces_append (g : Grid) (ps qs : List (Nat × Nat × Val)) :
    applyPlaces g (ps ++ qs) = applyPlaces (applyPlaces g ps) qs := by
  simp [applyPlaces]

/-- The value written by an assignment that no later assignment
overwrites is what the cell reads, provided the cell is in range. -/
theorem applyPlaces_last_write (g : Grid) (ps qs : List (Nat × Nat × Val))
    (r c : Nat) (v : Val)
    (hr : r < g.length) (hc : c < (g.getD r []).length)
    (h : (r, c) ∉ placeCells qs) :
    gridGet (applyPlaces g (ps ++ (r, c, v) :: qs)) r c = v := by
  rw [applyPlaces_append]
  have : applyPlaces (applyPlaces g ps) ((r, c, v) :: qs)
      = applyPlaces (gridSet (applyPlaces g ps) r c v) qs := rfl
  rw [this, applyPlaces_untouched _ _ _ _ h]
  apply gridGet_gridSet_self
  · rw [applyPlaces_length]; exact hr
  · rw [applyPlaces_row_length]; exact hc

/-! ## ceilSqrt lemmas -/

theorem ceilSqrt_found (n : Nat) :
    ∃ s, (List.range (n + 1)).find? (fun s => decide (n ≤ s * s)) = some s
      ∧ n ≤ s * s := by
  cases h : (List.range (n + 1)).find? (fun s => decide (n ≤ s * s)) with
  | some s => exact ⟨s, rfl, by simpa using List.find?_some h⟩
  | none =>
      exfalso
      rw [List.find?_eq_none] at h
      have hn := h n (by simp)
      simp only [decide_eq_true_eq] at hn
      apply hn
      cases n with
      | zero => exact Nat.le_refl 0
      | succ m =>
          calc m + 1 = (m + 1) * 1 := by ring
            _ ≤ (m + 1) * (m + 1) := Nat.mul_le_mul_left _ (by omega)

theorem le_ceilSqrt_sq (n : Nat) : n ≤ ceilSqrt n * ceilSqrt n := by
  obtain ⟨s, hs, hp⟩ := ceilSqrt_found n
  unfold ceilSqrt
  rw [hs]
  simpa using hp

theorem ceilSqrt_pos (n : Nat) (h : 0 < n) : 0 < ceilSqrt n := by
  obtain ⟨s, hs, hp⟩ := ceilSqrt_found n
  unfold ceilSqrt
  rw [hs]
  cases s with
  | zero => simp at hp; omega
  | succ m => simp

theorem ceilSqrt_one : ceilSqrt 1 = 1 := by decide

/-! ## zerosGrid lemmas -/

theorem zerosGrid_length (rows cols : Nat) : (zerosGrid rows cols).length = rows := by
  simp [zerosGrid]

theorem zerosGrid_row (rows cols r : Nat) (hr : r < rows) :
    (zerosGrid rows cols).getD r [] = List.replicate cols (0 : Val) := by
  simp [zerosGrid, List.getD_eq_getElem?_getD, List.getElem?_replicate, hr]

theorem zerosGrid_row_length (rows cols r : Nat) (hr : r < rows) :
    ((zerosGrid rows cols).getD r []).length = cols := by
  rw [zerosGrid_row rows cols r hr]; simp

theorem gridGet_zerosGrid (rows cols r c : Nat) :
    gridGet (zerosGrid rows cols) r c = 0 := by
  unfold gridGet
  by_cases hr : r < rows
  · rw [zerosGrid_row rows cols r hr]
    by_cases hc : c < cols
    · simp [List.getD_eq_getElem?_getD, List.getElem?_replicate, hc]
    · simp [List.getD_eq_getElem?_getD, List.getElem?_replicate, hc]
  · have : (zerosGrid rows cols)[r]? = none := by
      rw [List.getElem?_eq_none]; simpa [zerosGrid_length] using (by omega : rows ≤ r)
    simp [List.getD_eq_getElem?_getD, this]

/-! ## Row-major placement

`for i, val in enumerate(vals): grid[i // size, i % size] = val` -/

/-- The assignments the row-major placement loop performs. -/
def placementsRowMajor (size : Nat) (vals : List Val) : List (Nat × Nat × Val) :=
  vals.enum.map (fun iv => (iv.1 / size, iv.1 % size, iv.2))

theorem placementsRowMajor_eq (size : Nat) (vals : List Val) :
    placementsRowMajor size vals
      = (List.range vals.length).map (fun i => (i / size, i % size, vals.getD i 0)) := by
  apply List.ext_getElem
  · simp [placementsRowMajor]
  · intro i h1 h2
    simp only [placementsRowMajor, List.length_map, List.enum_length] at h1
    simp [placementsRowMajor, List.getElem_enum, List.getD_eq_getElem?_getD,
      List.getElem?_eq_getElem h1]

theorem rowMajor_div_mod (size r c : Nat) (hc : c < size) :
    (r * size + c) / size = r ∧ (r * size + c) % size = c := by
  constructor
  · rw [Nat.mul_comm r size, Nat.mul_add_div (by omega), Nat.div_eq_of_lt hc]
    omega
  · rw [Nat.mul_comm r size, Nat.mul_add_mod, Nat.mod_eq_of_lt hc]

/-- Cell values after the row-major placement loop over a zero grid. -/
theorem rowMajor_spec (size : Nat) (vals : List Val)
    (r c : Nat) (hr : r < size) (hc : c < size) :
    gridGet (applyPlaces (zerosGrid size size) (placementsRowMajor size vals)) r c
      = if r * size + c < vals.length then vals.getD (r * size + c) 0 else 0 := by
  rw [placementsRowMajor_eq]
  by_cases h : r * size + c < vals.length
  · rw [if_pos h]
    set i := r * size + c with hi
    set f : Nat → Nat × Nat × Val := fun j => (j / size, j % size, vals.getD j 0) with hf
    have hin : i < (List.range vals.length).length := by simpa using h
    have hsplit : List.range vals.length
        = (List.range vals.length).take i ++ i :: (List.range vals.length).drop (i + 1) := by
      conv_lhs => rw [← List.take_append_drop i (List.range vals.length)]
      rw [List.drop_eq_getElem_cons hin, List.getElem_range]
    rw [hsplit, List.map_append, List.map_cons]
    have hfi : f i = (r, c, vals.getD i 0) := by
      simp only [hf, hi]
      rw [(rowMajor_div_mod size r c hc).1, (rowMajor_div_mod size r c hc).2]
    rw [hfi]
    apply applyPlaces_last_write
    · rwa [zerosGrid_length]
    · rw [zerosGrid_row_length _ _ _ hr]; exact hc
    · intro hmem
      simp only [placeCells, List.map_map, List.mem_map] at hmem
      obtain ⟨j, hjmem, hjeq⟩ := hmem
      have hj : i < j := by
        obtain ⟨k', hk', hkj'⟩ := List.getElem_of_mem hjmem
        rw [List.getElem_drop, List.getElem_range] at hkj'
        omega
      simp only [hf, Function.comp] at hjeq
      have h1 : j / size = r := congrArg Prod.fst hjeq
      have h2 : j % size = c := congrArg Prod.snd hjeq
      have hd := Nat.div_add_mod j size
      rw [h1, h2, Nat.mul_comm] at hd
      omega
  · rw [if_neg h]
    rw [applyPlaces_untouched, gridGet_zerosGrid]
    intro hmem
    simp only [placeCells, List.map_map, List.mem_map, Function.comp] at hmem
    obtain ⟨j, hjmem, hjeq⟩ := hmem
    rw [List.mem_range] at hjmem
    have h1 : j / size = r := congrArg Prod.fst hjeq
    have h2 : j % size = c := congrArg Prod.snd hjeq
    have hd := Nat.div_add_mod j size
    rw [h1, h2, Nat.mul_comm] at hd
    omega

/-! ## The square row-major fill

The code snippet
```
size = int(np.ceil(np.sqrt(len(flat_values))))
grid = np.zeros((size, size))
for i, val in enumerate(flat_values[:size*size]):
    grid[i // size, i % size] = val
```
appears verbatim in `FlattenTransformer.transform`,
`NormalizedTransformer.transform` and the inline fallback of
`to_neutral_grid`; it is factored here as `squareFill`. -/

def squareFill (vals : List Val) : Grid :=
  let size := ceilSqrt vals.length
  applyPlaces (zerosGrid size size) (placementsRowMajor size (vals.take (size * size)))

theorem squareFill_length (vals : List Val) :
    (squareFill vals).length = ceilSqrt vals.length := by
  simp [squareFill, applyPlaces_length, zerosGrid_length]

theorem squareFill_row_length (vals : List Val) (r : Nat)
    (hr : r < ceilSqrt vals.length) :
    ((squareFill vals).getD r []).length = ceilSqrt vals.length := by
  simp only [squareFill]
  rw [applyPlaces_row_length, zerosGrid_row_length _ _ _ hr]

theorem squareFill_cell (vals : List Val) (r c : Nat)
    (hr : r < ceilSqrt vals.length) (hc : c < ceilSqrt vals.length) :
    gridGet (squareFill vals) r c
      = if r * ceilSqrt vals.length + c < vals.length
        then vals.getD (r * ceilSqrt vals.length + c) 0 else 0 := by
  simp only [squareFill]
  rw [List.take_of_length_le (le_ceilSqrt_sq vals.length)]
  exact rowMajor_spec _ vals r c hr hc

/-! ## FlattenTransformer (builtin.py, lines 9–38) -/

/-- `FlattenTransformer.transform`: concatenate all non-absent
tensors' flattened scalars (substituting `[0.0]` when the result is
empty) and fill a square grid row-major. -/
def FlattenTransformer.transform (tensors : TensorCollection) : Grid :=
  let flat0 := flatValues tensors
  let flat_values := if flat0 = [] then [0] else flat0
  squareFill flat_values

theorem flatten_of_empty (tc : TensorCollection) (h : flatValues tc = []) :
    FlattenTransformer.transform tc = [[0]] := by
  unfold FlattenTransformer.transform
  rw [h]
  decide

theorem flatten_of_ne_empty (tc : TensorCollection) (h : flatValues tc ≠ []) :
    FlattenTransformer.transform tc = squareFill (flatValues tc) := by
  unfold FlattenTransformer.transform
  simp [h]

/-! ## LayerWeightedTransformer (builtin.py, lines 40–89) -/

/-- The `layer_sizes` dict: name ↦ element count, for non-absent
tensors, in collection order. -/
def layerSizes (tensors : TensorCollection) : List (String × Nat) :=
  tensors.filterMap (fun p => p.2.map (fun arr => (p.1, arr.length)))

/-- The inner placement loop over one tensor's flattened values:
each value goes to `(current_pos // grid_size, current_pos % grid_size)`
unless `current_pos >= grid_size * grid_size` (the `break`).
Returns the assignments performed and the final `current_pos`. -/
def lwPlaceTensor (grid_size : Nat) : List Val → Nat → List (Nat × Nat × Val) × Nat
  | [], pos => ([], pos)
  | v :: rest, pos =>
    if grid_size * grid_size ≤ pos then ([], pos)
    else
      let tail := lwPlaceTensor grid_size rest (pos + 1)
      ((pos / grid_size, pos % grid_size, v) :: tail.1, tail.2)

/-- The outer placement loop: skip absent tensors and tensors whose
name is not a key of `layer_sizes`; otherwise place the flattened
values, threading `current_pos`. -/
def lwPlaceAll (grid_size : Nat) (layer_sizes : List (String × Nat)) :
    TensorCollection → Nat → List (Nat × Nat × Val)
  | [], _ => []
  | (name, arr) :: rest, pos =>
    match arr with
    | none => lwPlaceAll grid_size layer_sizes rest pos
    | some flat =>
      if layer_sizes.any (fun q => q.1 = name) then
        let pr := lwPlaceTensor grid_size flat pos
        pr.1 ++ lwPlaceAll grid_size layer_sizes rest pr.2
      else lwPlaceAll grid_size layer_sizes rest pos

/-- `LayerWeightedTransformer.transform`. -/
def LayerWeightedTransformer.transform (tensors : TensorCollection) : Grid :=
  if tensors = [] then zerosGrid 1 1
  else
    let layer_sizes := layerSizes tensors
    let total_elements := (layer_sizes.map Prod.snd).sum
    if total_elements = 0 then zerosGrid 1 1
    else
      let grid_size := ceilSqrt total_elements
      applyPlaces (zerosGrid grid_size grid_size)
        (lwPlaceAll grid_size layer_sizes tensors 0)

/-- Row-major assignments of `vals` at positions `pos, pos+1, …`. -/
def placementsRowMajorFrom (size pos : Nat) (vals : List Val) : List (Nat × Nat × Val) :=
  (List.range vals.length).map
    (fun i => ((pos + i) / size, (pos + i) % size, vals.getD i 0))

theorem placementsRowMajorFrom_zero (size : Nat) (vals : List Val) :
    placementsRowMajorFrom size 0 vals = placementsRowMajor size vals := by
  rw [placementsRowMajor_eq]
  simp [placementsRowMajorFrom]

theorem placementsRowMajorFrom_append (size pos : Nat) (v w : List Val) :
    placementsRowMajorFrom size pos (v ++ w)
      = placementsRowMajorFrom size pos v
        ++ placementsRowMajorFrom size (pos + v.length) w := by
  unfold placementsRowMajorFrom
  rw [List.length_append, List.range_add, List.map_append, List.map_map]
  congr 1
  · apply List.map_congr_left
    intro i hi
    rw [List.mem_range] at hi
    simp [List.getD_eq_getElem?_getD, List.getElem?_append_left hi]
  · apply List.map_congr_left
    intro i hi
    rw [List.mem_range] at hi
    simp only [Function.comp]
    have h1 : pos + (v.length + i) = pos + v.length + i := by omega
    have h2 : (v ++ w).getD (v.length + i) 0 = w.getD i 0 := by
      rw [List.getD_eq_getElem?_getD, List.getElem?_append_right (by omega),
        ← List.getD_eq_getElem?_getD]
      congr 1
      omega
    rw [h1, h2]

theorem lwPlaceTensor_spec (grid_size : Nat) (vals : List Val) (pos : Nat)
    (h : pos + vals.length ≤ grid_size * grid_size) :
    lwPlaceTensor grid_size vals pos
      = (placementsRowMajorFrom grid_size pos vals, pos + vals.length) := by
  induction vals generalizing pos with
  | nil => simp [lwPlaceTensor, placementsRowMajorFrom]
  | cons v rest ih =>
      rw [lwPlaceTensor, if_neg (by simp at h; omega)]
      rw [ih (pos + 1) (by simp at h ⊢; omega)]
      simp only [placementsRowMajorFrom, List.length_cons, List.range_succ_eq_map,
        List.map_cons, List.map_map, Prod.mk.injEq, List.cons.injEq]
      refine ⟨⟨by simp, ?_⟩, by omega⟩
      apply List.map_congr_left
      intro i hi
      simp only [Function.comp, Nat.succ_eq_add_one]
      have hadd : pos + (i + 1) = pos + 1 + i := by omega
      rw [hadd]
      simp

theorem lwPlaceAll_spec (grid_size : Nat) (ls : List (String × Nat))
    (tensors : TensorCollection) (pos : Nat)
    (hmem : ∀ p ∈ tensors, ∀ flat, p.2 = some flat → ls.any (fun q => q.1 = p.1))
    (h : pos + (flatValues tensors).length ≤ grid_size * grid_size) :
    lwPlaceAll grid_size ls tensors pos
      = placementsRowMajorFrom grid_size pos (flatValues tensors) := by
  induction tensors generalizing pos with
  | nil => simp [lwPlaceAll, placementsRowMajorFrom, flatValues]
  | cons p rest ih =>
      obtain ⟨name, arr⟩ := p
      match arr with
      | none =>
          rw [show lwPlaceAll grid_size ls ((name, none) :: rest) pos
              = lwPlaceAll grid_size ls rest pos from rfl]
          have hfv : flatValues ((name, none) :: rest) = flatValues rest := by
            simp [flatValues]
          rw [hfv] at h ⊢
          exact ih pos (fun q hq => hmem q (List.mem_cons_of_mem _ hq)) h
      | some flat =>
          have hfv : flatValues ((name, some flat) :: rest) = flat ++ flatValues rest := by
            simp [flatValues]
          have hname : ls.any (fun q => q.1 = name) :=
            hmem (name, some flat) (List.mem_cons_self _ _) flat rfl
          rw [show lwPlaceAll grid_size ls ((name, some flat) :: rest) pos
              = if ls.any (fun q => q.1 = name) then
                  (lwPlaceTensor grid_size flat pos).1
                    ++ lwPlaceAll grid_size ls rest (lwPlaceTensor grid_size flat pos).2
                else lwPlaceAll grid_size ls rest pos from rfl]
          rw [if_pos hname]
          rw [hfv] at h ⊢
          rw [List.length_append] at h
          rw [lwPlaceTensor_spec grid_size flat pos (by omega)]
          rw [ih (pos + flat.length) (fun q hq => hmem q (List.mem_cons_of_mem _ hq))
            (by omega)]
          rw [placementsRowMajorFrom_append]

theorem layerSizes_total (tensors : TensorCollection) :
    ((layerSizes tensors).map Prod.snd).sum = (flatValues tensors).length := by
  induction tensors with
  | nil => simp [layerSizes, flatValues]
  | cons p rest ih =>
      obtain ⟨name, arr⟩ := p
      match arr with
      | none => simpa [layerSizes, flatValues] using ih
      | some flat => simp [layerSizes, flatValues] at ih ⊢; omega

/-- `LayerWeightedTransformer.transform` agrees with
`FlattenTransformer.transform` on every input. -/
theorem layerWeighted_eq_flatten (tensors : TensorCollection) :
    LayerWeightedTransformer.transform tensors
      = FlattenTransformer.transform tensors := by
  by_cases hfv : flatValues tensors = []
  · rw [flatten_of_empty tensors hfv]
    by_cases hnil : tensors = []
    · subst hnil
      decide
    · have htot : ((layerSizes tensors).map Prod.snd).sum = 0 := by
        rw [layerSizes_total, hfv]; rfl
      simp only [LayerWeightedTransformer.transform]
      rw [if_neg hnil, if_pos htot]
      decide
  · rw [flatten_of_ne_empty tensors hfv]
    unfold LayerWeightedTransformer.transform
    have hnil : tensors ≠ [] := by
      intro hcon
      rw [hcon] at hfv
      exact hfv rfl
    rw [if_neg hnil]
    have htot : ((layerSizes tensors).map Prod.snd).sum = (flatValues tensors).length :=
      layerSizes_total tensors
    have hpos : ((layerSizes tensors).map Prod.snd).sum ≠ 0 := by
      rw [htot]
      simpa [List.length_eq_zero] using hfv
    simp only [if_neg hpos]
    rw [htot]
    rw [lwPlaceAll_spec _ _ _ _ ?side (by simpa using le_ceilSqrt_sq (flatValues tensors).length)]
    case side =>
      intro p hp flat hflat
      rw [List.any_eq_true]
      refine ⟨(p.1, flat.length), ?_, by simp⟩
      unfold layerSizes
      rw [List.mem_filterMap]
      exact ⟨p, hp, by rw [hflat]; rfl⟩
    rw [placementsRowMajorFrom_zero]
    simp only [squareFill]
    rw [List.take_of_length_le (le_ceilSqrt_sq (flatValues tensors).length)]

/-! ## NormalizedTransformer (builtin.py, lines 153–188) -/

/-- `np.min` over a flattened nonempty array (`0` on `[]`, which the
code never evaluates). -/
def listMin : List Val → Val
  | [] => 0
  | v :: rest => rest.foldl min v

/-- `np.max` over a flattened nonempty array. -/
def listMax : List Val → Val
  | [] => 0
  | v :: rest => rest.foldl max v

/-- The `1e-6` threshold of the normalization guard (the claims and
spec state it as `1e-6`; we use the exact rational). -/
def normEps : Val := 1 / 1000000

/-- `NormalizedTransformer.transform`: empty input returns a 1×1 zero
grid; otherwise min-max normalize all values jointly (skipped when
`max - min <= 1e-6`) and fill a square grid row-major. -/
def NormalizedTransformer.transform (tensors : TensorCollection) : Grid :=
  let flat_values := flatValues tensors
  if flat_values = [] then zerosGrid 1 1
  else
    let min_val := listMin flat_values
    let max_val := listMax flat_values
    let flat_array :=
      if normEps < max_val - min_val
      then flat_values.map (fun v => (v - min_val) / (max_val - min_val))
      else flat_values
    squareFill flat_array

theorem foldl_min_le_init (l : List Val) (a : Val) : l.foldl min a ≤ a := by
  induction l generalizing a with
  | nil => exact le_refl a
  | cons x xs ih => exact le_trans (ih (min a x)) (min_le_left a x)

theorem foldl_min_le_mem (l : List Val) (a x : Val) (h : x ∈ l) : l.foldl min a ≤ x := by
  induction l generalizing a with
  | nil => cases h
  | cons y ys ih =>
      rcases List.mem_cons.mp h with rfl | hmem
      · exact le_trans (foldl_min_le_init ys (min a x)) (min_le_right a x)
      · exact ih (min a y) hmem

theorem init_le_foldl_max (l : List Val) (a : Val) : a ≤ l.foldl max a := by
  induction l generalizing a with
  | nil => exact le_refl a
  | cons x xs ih => exact le_trans (le_max_left a x) (ih (max a x))

theorem mem_le_foldl_max (l : List Val) (a x : Val) (h : x ∈ l) : x ≤ l.foldl max a := by
  induction l generalizing a with
  | nil => cases h
  | cons y ys ih =>
      rcases List.mem_cons.mp h with rfl | hmem
      · exact le_trans (le_max_right a x) (init_le_foldl_max ys (max a x))
      · exact ih (max a y) hmem

theorem listMin_le (l : List Val) (x : Val) (h : x ∈ l) : listMin l ≤ x := by
  match l with
  | [] => cases h
  | v :: rest =>
      rcases List.mem_cons.mp h with rfl | hmem
      · exact foldl_min_le_init rest x
      · exact foldl_min_le_mem rest v x hmem

theorem le_listMax (l : List Val) (x : Val) (h : x ∈ l) : x ≤ listMax l := by
  match l with
  | [] => cases h
  | v :: rest =>
      rcases List.mem_cons.mp h with rfl | hmem
      · exact init_le_foldl_max rest x
      · exact mem_le_foldl_max rest v x hmem

/-- When the guard rescales, every rescaled value lies in `[0, 1]`. -/
theorem normalized_value_mem_unit (l : List Val) (x : Val) (hx : x ∈ l)
    (h : listMin l < listMax l) :
    0 ≤ (x - listMin l) / (listMax l - listMin l)
      ∧ (x - listMin l) / (listMax l - listMin l) ≤ 1 := by
  have h1 : listMin l ≤ x := listMin_le l x hx
  have h2 : x ≤ listMax l := le_listMax l x hx
  have hpos : (0 : Val) < listMax l - listMin l := by linarith
  constructor
  · apply div_nonneg (by linarith) (le_of_lt hpos)
  · rw [div_le_one hpos]
    linarith

theorem normalized_of_empty (tc : TensorCollection) (h : flatValues tc = []) :
    NormalizedTransformer.transform tc = [[0]] := by
  simp only [NormalizedTransformer.transform, h, if_pos]
  decide

theorem normalized_of_ne_empty (tc : TensorCollection) (h : flatValues tc ≠ []) :
    NormalizedTransformer.transform tc
      = squareFill
          (if normEps < listMax (flatValues tc) - listMin (flatValues tc)
           then (flatValues tc).map
             (fun v => (v - listMin (flatValues tc))
               / (listMax (flatValues tc) - listMin (flatValues tc)))
           else flatValues tc) := by
  simp only [NormalizedTransformer.transform, if_neg h]

/-! ## LayerSeparatedTransformer (builtin.py, lines 191–249) -/

/-- `int(np.ceil(n / d))` for natural `n`, `d` (`d > 0` at the call
site). -/
def ceilDivNat (n d : Nat) : Nat := (n + d - 1) / d

/-- `max(...)` over a nonempty list of naturals (`0` on `[]`, never
taken by the code). -/
def maxNat : List Nat → Nat
  | [] => 0
  | v :: rest => rest.foldl max v

/-- The per-layer sub-grid:
```
size = int(np.ceil(np.sqrt(len(flat))))
layer_grid = np.zeros((size + 2, size + 2))  # +2 for border
for i, val in enumerate(flat[:size*size]):
    layer_grid[(i // size) + 1, (i % size) + 1] = val
``` -/
def subGridOf (flat : List Val) : Grid :=
  let size := ceilSqrt flat.length
  applyPlaces (zerosGrid (size + 2) (size + 2))
    ((flat.take (size * size)).enum.map
      (fun iv => (iv.1 / size + 1, iv.1 % size + 1, iv.2)))

/-- The assignments performed by the NumPy block copy
`final_grid[start_row:start_row+h, start_col:start_col+w] = layer_grid`. -/
def blockPlaces (start_row start_col : Nat) (sub : Grid) : List (Nat × Nat × Val) :=
  (List.range sub.length).flatMap
    (fun r => (List.range ((sub.getD r []).length)).map
      (fun c => (start_row + r, start_col + c, gridGet sub r c)))

/-- The `layer_grids` list: one bordered sub-grid per non-absent
tensor, in collection order. -/
def layerGrids (tensors : TensorCollection) : List Grid :=
  (tensors.filterMap Prod.snd).map subGridOf

/-- `LayerSeparatedTransformer.transform`. -/
def LayerSeparatedTransformer.transform (tensors : TensorCollection) : Grid :=
  if tensors = [] then zerosGrid 1 1
  else
    let layer_grids := layerGrids tensors
    if layer_grids = [] then zerosGrid 1 1
    else
      let n_layers := layer_grids.length
      let cols := ceilSqrt n_layers
      let rows := ceilDivNat n_layers cols
      let max_h := maxNat (layer_grids.map List.length)
      let max_w := maxNat (layer_grids.map (fun g => (g.getD 0 []).length))
      applyPlaces (zerosGrid (rows * max_h) (cols * max_w))
        (layer_grids.enum.flatMap
          (fun ig => blockPlaces (ig.1 / cols * max_h) (ig.1 % cols * max_w) ig.2))

theorem maxNat_le_of_mem (l : List Nat) (x : Nat) (h : x ∈ l) : x ≤ maxNat l := by
  match l with
  | [] => cases h
  | v :: rest =>
      have step : ∀ (ys : List Nat) (a b : Nat), b ≤ a → b ≤ ys.foldl max a := by
        intro ys
        induction ys with
        | nil => intro a b hba; simpa using hba
        | cons y ys ih =>
            intro a b hba
            exact ih (max a y) b (le_trans hba (le_max_left a y))
      rcases List.mem_cons.mp h with rfl | hmem
      · exact step rest x x (le_refl x)
      · clear h
        induction rest generalizing v with
        | nil => cases hmem
        | cons y ys ih =>
            rcases List.mem_cons.mp hmem with rfl | hmem'
            · exact step ys (max v x) x (le_max_right v x)
            · exact ih (max v y) hmem'

theorem le_mul_ceilDivNat (n d : Nat) (hd : 0 < d) : n ≤ d * ceilDivNat n d := by
  unfold ceilDivNat
  have h1 : d * ((n + d - 1) / d) + (n + d - 1) % d = n + d - 1 := Nat.div_add_mod _ _
  have h2 : (n + d - 1) % d < d := Nat.mod_lt _ hd
  omega

/-! ### Sub-grid characterization -/

theorem subGrid_places_eq (flat : List Val) :
    ((flat.take (ceilSqrt flat.length * ceilSqrt flat.length)).enum.map
        (fun iv => (iv.1 / ceilSqrt flat.length + 1, iv.1 % ceilSqrt flat.length + 1, iv.2)))
      = (List.range flat.length).map
          (fun i => (i / ceilSqrt flat.length + 1, i % ceilSqrt flat.length + 1,
            flat.getD i 0)) := by
  rw [List.take_of_length_le (le_ceilSqrt_sq flat.length)]
  apply List.ext_getElem
  · simp
  · intro i h1 h2
    simp only [List.length_map, List.enum_length] at h1
    simp [List.getElem_enum, List.getD_eq_getElem?_getD, List.getElem?_eq_getElem h1]

theorem subGrid_length (flat : List Val) :
    (subGridOf flat).length = ceilSqrt flat.length + 2 := by
  simp [subGridOf, applyPlaces_length, zerosGrid_length]

theorem subGrid_row_length (flat : List Val) (r : Nat)
    (hr : r < ceilSqrt flat.length + 2) :
    ((subGridOf flat).getD r []).length = ceilSqrt flat.length + 2 := by
  simp only [subGridOf]
  rw [applyPlaces_row_length, zerosGrid_row_length _ _ _ hr]

theorem subGrid_cell (flat : List Val) (r c : Nat)
    (hr : r < ceilSqrt flat.length) (hc : c < ceilSqrt flat.length) :
    gridGet (subGridOf flat) (r + 1) (c + 1)
      = if r * ceilSqrt flat.length + c < flat.length
        then flat.getD (r * ceilSqrt flat.length + c) 0 else 0 := by
  simp only [subGridOf]
  rw [subGrid_places_eq]
  set s := ceilSqrt flat.length with hs
  by_cases h : r * s + c < flat.length
  · rw [if_pos h]
    set i := r * s + c with hi
    set f : Nat → Nat × Nat × Val := fun j => (j / s + 1, j % s + 1, flat.getD j 0) with hf
    have hin : i < (List.range flat.length).length := by simpa using h
    have hsplit : List.range flat.length
        = (List.range flat.length).take i ++ i :: (List.range flat.length).drop (i + 1) := by
      conv_lhs => rw [← List.take_append_drop i (List.range flat.length)]
      rw [List.drop_eq_getElem_cons hin, List.getElem_range]
    rw [hsplit, List.map_append, List.map_cons]
    have hfi : f i = (r + 1, c + 1, flat.getD i 0) := by
      simp only [hf, hi]
      rw [(rowMajor_div_mod s r c hc).1, (rowMajor_div_mod s r c hc).2]
    rw [hfi]
    apply applyPlaces_last_write
    · rw [zerosGrid_length]; omega
    · rw [zerosGrid_row_length _ _ _ (by omega)]; omega
    · intro hmem
      simp only [placeCells, List.map_map, List.mem_map] at hmem
      obtain ⟨j, hjmem, hjeq⟩ := hmem
      have hj : i < j := by
        obtain ⟨k', hk', hkj'⟩ := List.getElem_of_mem hjmem
        rw [List.getElem_drop, List.getElem_range] at hkj'
        omega
      simp only [hf, Function.comp] at hjeq
      have h1 : j / s + 1 = r + 1 := congrArg Prod.fst hjeq
      have h2 : j % s + 1 = c + 1 := congrArg Prod.snd hjeq
      have h1' : j / s = r := by omega
      have h2' : j % s = c := by omega
      have hd := Nat.div_add_mod j s
      rw [h1', h2', Nat.mul_comm] at hd
      omega
  · rw [if_neg h]
    rw [applyPlaces_untouched, gridGet_zerosGrid]
    intro hmem
    simp only [placeCells, List.map_map, List.mem_map, Function.comp] at hmem
    obtain ⟨j, hjmem, hjeq⟩ := hmem
    rw [List.mem_range] at hjmem
    have h1 : j / s + 1 = r + 1 := congrArg Prod.fst hjeq
    have h2 : j % s + 1 = c + 1 := congrArg Prod.snd hjeq
    have h1' : j / s = r := by omega
    have h2' : j % s = c := by omega
    have hd := Nat.div_add_mod j s
    rw [h1', h2', Nat.mul_comm] at hd
    omega

/-- The 1-cell border of a sub-grid is all zero. -/
theorem subGrid_border (flat : List Val) (r' c' : Nat)
    (h : r' = 0 ∨ r' = ceilSqrt flat.length + 1
        ∨ c' = 0 ∨ c' = ceilSqrt flat.length + 1) :
    gridGet (subGridOf flat) r' c' = 0 := by
  simp only [subGridOf]
  rw [subGrid_places_eq]
  rw [applyPlaces_untouched, gridGet_zerosGrid]
  intro hmem
  simp only [placeCells, List.map_map, List.mem_map, Function.comp] at hmem
  obtain ⟨j, hjmem, hjeq⟩ := hmem
  rw [List.mem_range] at hjmem
  have h1 : j / ceilSqrt flat.length + 1 = r' := congrArg Prod.fst hjeq
  have h2 : j % ceilSqrt flat.length + 1 = c' := congrArg Prod.snd hjeq
  have hlen : flat.length ≤ ceilSqrt flat.length * ceilSqrt flat.length :=
    le_ceilSqrt_sq flat.length
  have hspos : 0 < ceilSqrt flat.length := ceilSqrt_pos _ (by omega)
  have hjdiv : j / ceilSqrt flat.length < ceilSqrt flat.length :=
    (Nat.div_lt_iff_lt_mul hspos).mpr (by omega)
  have hjmod : j % ceilSqrt flat.length < ceilSqrt flat.length :=
    Nat.mod_lt _ hspos
  rcases h with rfl | rfl | rfl | rfl
  · exact Nat.succ_ne_zero _ h1
  · exact absurd (Nat.add_right_cancel h1) (Nat.ne_of_lt hjdiv)
  · exact Nat.succ_ne_zero _ h2
  · exact absurd (Nat.add_right_cancel h2) (Nat.ne_of_lt hjmod)

/-! ### Block copy and tiling -/

theorem placeCells_append (l l' : List (Nat × Nat × Val)) :
    placeCells (l ++ l') = placeCells l ++ placeCells l' := by
  simp [placeCells]

theorem mem_placeCells_blockPlaces (sr sc : Nat) (sub : Grid) (q : Nat × Nat) :
    q ∈ placeCells (blockPlaces sr sc sub)
      ↔ ∃ r, r < sub.length ∧ ∃ c, c < (sub.getD r []).length
          ∧ q = (sr + r, sc + c) := by
  simp only [placeCells, blockPlaces, List.map_flatMap, List.map_map, List.mem_flatMap,
    List.mem_map, List.mem_range, Function.comp]
  constructor
  · rintro ⟨r, hr, c, hc, rfl⟩
    exact ⟨r, hr, c, hc, rfl⟩
  · rintro ⟨r, hr, c, hc, rfl⟩
    exact ⟨r, hr, c, hc, rfl⟩

/-- Uniqueness of the quotient/remainder decomposition of a block
coordinate. -/
theorem block_coord_inj (m a b x y : Nat) (hx : x < m) (hy : y < m)
    (h : a * m + x = b * m + y) : a = b ∧ x = y := by
  have ha := rowMajor_div_mod m a x hx
  have hb := rowMajor_div_mod m b y hy
  constructor
  · rw [← ha.1, ← hb.1, h]
  · rw [← ha.2, ← hb.2, h]

/-- Effect of one NumPy block copy on a target cell inside the block. -/
theorem blockPlaces_value (g : Grid) (sr sc : Nat) (sub : Grid) (r c : Nat)
    (hr : r < sub.length) (hc : c < (sub.getD r []).length)
    (hrg : sr + r < g.length) (hcg : sc + c < (g.getD (sr + r) []).length) :
    gridGet (applyPlaces g (blockPlaces sr sc sub)) (sr + r) (sc + c)
      = gridGet sub r c := by
  unfold blockPlaces
  have hrin : r < (List.range sub.length).length := by simpa using hr
  have hsplitr : List.range sub.length
      = (List.range sub.length).take r ++ r :: (List.range sub.length).drop (r + 1) := by
    conv_lhs => rw [← List.take_append_drop r (List.range sub.length)]
    rw [List.drop_eq_getElem_cons hrin, List.getElem_range]
  rw [hsplitr, List.flatMap_append, List.flatMap_cons]
  have hcin : c < (List.range (sub.getD r []).length).length := by simpa using hc
  have hsplitc : List.range (sub.getD r []).length
      = (List.range (sub.getD r []).length).take c
        ++ c :: (List.range (sub.getD r []).length).drop (c + 1) := by
    conv_lhs => rw [← List.take_append_drop c (List.range (sub.getD r []).length)]
    rw [List.drop_eq_getElem_cons hcin, List.getElem_range]
  rw [hsplitc, List.map_append, List.map_cons]
  rw [show ∀ (A B : List (Nat × Nat × Val)) (x : Nat × Nat × Val) (C D : List (Nat × Nat × Val)),
      A ++ ((B ++ x :: C) ++ D) = (A ++ B) ++ x :: (C ++ D) from by intros; simp]
  apply applyPlaces_last_write _ _ _ _ _ _ hrg hcg
  rw [placeCells_append, List.mem_append]
  push_neg
  constructor
  · intro hmem
    simp only [placeCells, List.map_map, List.mem_map, Function.comp] at hmem
    obtain ⟨j, hjmem, hjeq⟩ := hmem
    obtain ⟨k', hk', hkj'⟩ := List.getElem_of_mem hjmem
    rw [List.getElem_drop, List.getElem_range] at hkj'
    have h2 : sc + j = sc + c := congrArg Prod.snd hjeq
    omega
  · intro hmem
    simp only [placeCells, List.map_flatMap, List.map_map, List.mem_flatMap,
      List.mem_map, Function.comp] at hmem
    obtain ⟨j, hjmem, _, _, hjeq⟩ := hmem
    obtain ⟨k', hk', hkj'⟩ := List.getElem_of_mem hjmem
    rw [List.getElem_drop, List.getElem_range] at hkj'
    have h1 : sr + j = sr + r := congrArg Prod.fst hjeq
    omega

theorem getD_of_lt {α : Type} (l : List α) (d : α) (i : Nat) (h : i < l.length) :
    l.getD i d = l[i] := by
  rw [List.getD_eq_getElem?_getD, List.getElem?_eq_getElem h]
  rfl

theorem placeCells_flatMap {α : Type} (l : List α) (f : α → List (Nat × Nat × Val)) :
    placeCells (l.flatMap f) = l.flatMap (fun x => placeCells (f x)) := by
  simp [placeCells, List.map_flatMap]

/-- The assignments of the whole tiling loop of
`LayerSeparatedTransformer.transform`, as cells. -/
theorem mem_placeCells_tile (grids : List Grid) (cols max_h max_w : Nat) (q : Nat × Nat) :
    q ∈ placeCells (grids.enum.flatMap
        (fun ig => blockPlaces (ig.1 / cols * max_h) (ig.1 % cols * max_w) ig.2))
      ↔ ∃ k, k < grids.length ∧ ∃ r, r < (grids.getD k []).length
          ∧ ∃ c, c < ((grids.getD k []).getD r []).length
          ∧ q = (k / cols * max_h + r, k % cols * max_w + c) := by
  rw [placeCells_flatMap, List.mem_flatMap]
  constructor
  · rintro ⟨ig, higmem, hq⟩
    obtain ⟨i, hi, hig⟩ := List.getElem_of_mem higmem
    rw [List.getElem_enum] at hig
    subst hig
    rw [mem_placeCells_blockPlaces] at hq
    obtain ⟨r, hr, c, hc, rfl⟩ := hq
    simp only [List.enum_length] at hi
    refine ⟨i, hi, r, ?_, c, ?_, rfl⟩
    · rwa [getD_of_lt _ _ _ hi]
    · rwa [getD_of_lt _ _ _ hi]
  · rintro ⟨k, hk, r, hr, c, hc, rfl⟩
    have hkE : k < grids.enum.length := by simpa using hk
    refine ⟨grids.enum[k], List.getElem_mem hkE, ?_⟩
    rw [List.getElem_enum, mem_placeCells_blockPlaces]
    exact ⟨r, by rwa [getD_of_lt _ _ _ hk] at hr, c,
      by rwa [getD_of_lt _ _ _ hk] at hc, rfl⟩

/-- A cell of the final grid inside tile `k`'s sub-grid extent reads
the sub-grid's cell. -/
theorem tile_value (g : Grid) (grids : List Grid) (cols max_h max_w : Nat)
    (hh : ∀ sub ∈ grids, sub.length ≤ max_h)
    (hw : ∀ sub ∈ grids, ∀ r' ≤ sub.length, (sub.getD r' []).length ≤ max_w)
    (k : Nat) (hk : k < grids.length) (r c : Nat)
    (hr : r < (grids.getD k []).length)
    (hc : c < ((grids.getD k []).getD r []).length)
    (hrg : k / cols * max_h + r < g.length)
    (hcg : k % cols * max_w + c < (g.getD (k / cols * max_h + r) []).length) :
    gridGet (applyPlaces g (grids.enum.flatMap
        (fun ig => blockPlaces (ig.1 / cols * max_h) (ig.1 % cols * max_w) ig.2)))
      (k / cols * max_h + r) (k % cols * max_w + c)
      = gridGet (grids.getD k []) r c := by
  have hkE : k < grids.enum.length := by simpa using hk
  have hsplit : grids.enum
      = grids.enum.take k ++ (k, grids[k]) :: grids.enum.drop (k + 1) := by
    conv_lhs => rw [← List.take_append_drop k grids.enum]
    rw [List.drop_eq_getElem_cons hkE, List.getElem_enum]
  rw [hsplit, List.flatMap_append, List.flatMap_cons, applyPlaces_append,
    applyPlaces_append]
  have hmemk : grids[k] ∈ grids := List.getElem_mem hk
  have hgetD : grids.getD k [] = grids[k] := getD_of_lt _ _ _ hk
  rw [hgetD] at hr hc ⊢
  rw [applyPlaces_untouched]
  · rw [show ((k : Nat), grids[k]).1 = k from rfl, show ((k : Nat), grids[k]).2 = grids[k] from rfl]
    apply blockPlaces_value _ _ _ _ _ _ hr hc
    · rw [applyPlaces_length]; exact hrg
    · rw [applyPlaces_row_length]; exact hcg
  · -- the later tiles never touch a cell of tile k
    intro hmem
    rw [placeCells_flatMap, List.mem_flatMap] at hmem
    obtain ⟨ig, higmem, hq⟩ := hmem
    obtain ⟨i, hi, hig⟩ := List.getElem_of_mem higmem
    rw [List.getElem_drop, List.getElem_enum] at hig
    subst hig
    rw [mem_placeCells_blockPlaces] at hq
    obtain ⟨r'', hr'', c'', hc'', heq⟩ := hq
    set k'' := k + 1 + i with hk''
    have hk''len : k'' < grids.length := by
      simp only [List.length_drop, List.enum_length] at hi
      omega
    have hmemk'' : grids[k''] ∈ grids := List.getElem_mem hk''len
    have hrow : k / cols * max_h + r = k'' / cols * max_h + r'' :=
      congrArg Prod.fst heq
    have hcol : k % cols * max_w + c = k'' % cols * max_w + c'' :=
      congrArg Prod.snd heq
    have hrmax : r < max_h := lt_of_lt_of_le hr (hh _ hmemk)
    have hrmax'' : r'' < max_h := lt_of_lt_of_le hr'' (hh _ hmemk'')
    have hcmax : c < max_w := lt_of_lt_of_le hc (hw _ hmemk r (le_of_lt hr))
    have hcmax'' : c'' < max_w := lt_of_lt_of_le hc'' (hw _ hmemk'' r'' (le_of_lt hr''))
    have hrowinj := block_coord_inj max_h (k / cols) (k'' / cols) r r'' hrmax hrmax'' hrow
    have hcolinj := block_coord_inj max_w (k % cols) (k'' % cols) c c'' hcmax hcmax'' hcol
    have hkk : k = k'' := by
      rw [← Nat.div_add_mod k cols, ← Nat.div_add_mod k'' cols,
        hrowinj.1, hcolinj.1]
    omega

theorem block_off_lt (q bound x m : Nat) (hq : q < bound) (hx : x < m) :
    q * m + x < bound * m := by
  calc q * m + x < q * m + m := by omega
    _ = (q + 1) * m := by ring
    _ ≤ bound * m := Nat.mul_le_mul_right m (by omega)

/-! ### LayerSeparated characterization -/

/-- `cols` of the coarse tiling. -/
def lsCols (tensors : TensorCollection) : Nat :=
  ceilSqrt (layerGrids tensors).length

/-- `rows` of the coarse tiling. -/
def lsRows (tensors : TensorCollection) : Nat :=
  ceilDivNat (layerGrids tensors).length (lsCols tensors)

/-- `max_h`: the tallest sub-grid height. -/
def lsMaxH (tensors : TensorCollection) : Nat :=
  maxNat ((layerGrids tensors).map List.length)

/-- `max_w`: the widest sub-grid width. -/
def lsMaxW (tensors : TensorCollection) : Nat :=
  maxNat ((layerGrids tensors).map (fun g => (g.getD 0 []).length))

theorem layerSeparated_of_empty (tensors : TensorCollection)
    (h : tensors.filterMap Prod.snd = []) :
    LayerSeparatedTransformer.transform tensors = [[0]] := by
  by_cases hnil : tensors = []
  · subst hnil
    decide
  · simp only [LayerSeparatedTransformer.transform, layerGrids, h, List.map_nil,
      if_neg hnil, if_pos rfl]
    decide

theorem layerSeparated_of_ne (tensors : TensorCollection)
    (h : layerGrids tensors ≠ []) :
    LayerSeparatedTransformer.transform tensors
      = applyPlaces
          (zerosGrid (lsRows tensors * lsMaxH tensors) (lsCols tensors * lsMaxW tensors))
          ((layerGrids tensors).enum.flatMap
            (fun ig => blockPlaces (ig.1 / lsCols tensors * lsMaxH tensors)
              (ig.1 % lsCols tensors * lsMaxW tensors) ig.2)) := by
  have hnil : tensors ≠ [] := by
    intro hcon
    apply h
    rw [hcon]
    rfl
  simp only [LayerSeparatedTransformer.transform, if_neg hnil, if_neg h]
  rfl

theorem layerSeparated_length (tensors : TensorCollection)
    (h : layerGrids tensors ≠ []) :
    (LayerSeparatedTransformer.transform tensors).length
      = lsRows tensors * lsMaxH tensors := by
  rw [layerSeparated_of_ne tensors h, applyPlaces_length, zerosGrid_length]

theorem layerSeparated_row_length (tensors : TensorCollection)
    (h : layerGrids tensors ≠ []) (r : Nat)
    (hr : r < lsRows tensors * lsMaxH tensors) :
    ((LayerSeparatedTransformer.transform tensors).getD r []).length
      = lsCols tensors * lsMaxW tensors := by
  rw [layerSeparated_of_ne tensors h, applyPlaces_row_length,
    zerosGrid_row_length _ _ _ hr]

theorem layerGrids_height_le (tensors : TensorCollection) (sub : Grid)
    (h : sub ∈ layerGrids tensors) : sub.length ≤ lsMaxH tensors := by
  apply maxNat_le_of_mem
  exact List.mem_map_of_mem List.length h

theorem layerGrids_width_le (tensors : TensorCollection) (sub : Grid)
    (h : sub ∈ layerGrids tensors) (r' : Nat) (h' : r' ≤ sub.length) :
    (sub.getD r' []).length ≤ lsMaxW tensors := by
  obtain ⟨flat, _, rfl⟩ := List.mem_map.mp h
  rcases Nat.lt_or_ge r' (subGridOf flat).length with hlt | hge
  · rw [subGrid_length] at hlt
    rw [subGrid_row_length flat r' hlt]
    have h0 : ((subGridOf flat).getD 0 []).length = ceilSqrt flat.length + 2 :=
      subGrid_row_length flat 0 (by omega)
    rw [← h0]
    apply maxNat_le_of_mem
    exact List.mem_map_of_mem _ h
  · rw [List.getD_eq_getElem?_getD, List.getElem?_eq_none (by omega)]
    simp

theorem layerGrids_maxH_pos (tensors : TensorCollection)
    (h : layerGrids tensors ≠ []) : 0 < lsMaxH tensors := by
  obtain ⟨sub, hsub⟩ := List.exists_mem_of_ne_nil _ h
  have h1 := layerGrids_height_le tensors sub hsub
  obtain ⟨flat, _, rfl⟩ := List.mem_map.mp hsub
  rw [subGrid_length] at h1
  omega

theorem lsCols_pos (tensors : TensorCollection) (h : layerGrids tensors ≠ []) :
    0 < lsCols tensors := by
  apply ceilSqrt_pos
  simpa [List.length_pos] using h

theorem div_lsCols_lt_lsRows (tensors : TensorCollection)
    (h : layerGrids tensors ≠ []) (k : Nat) (hk : k < (layerGrids tensors).length) :
    k / lsCols tensors < lsRows tensors := by
  have hcols := lsCols_pos tensors h
  rw [Nat.div_lt_iff_lt_mul hcols]
  calc k < (layerGrids tensors).length := hk
    _ ≤ lsCols tensors * lsRows tensors :=
        le_mul_ceilDivNat _ _ hcols
    _ = lsRows tensors * lsCols tensors := Nat.mul_comm _ _

/-- Cell of the final LayerSeparated grid inside tile `k`. -/
theorem layerSeparated_tile_cell (tensors : TensorCollection)
    (hne : layerGrids tensors ≠ []) (k : Nat)
    (hk : k < (layerGrids tensors).length) (r c : Nat)
    (hr : r < ((layerGrids tensors).getD k []).length)
    (hc : c < (((layerGrids tensors).getD k []).getD r []).length) :
    gridGet (LayerSeparatedTransformer.transform tensors)
        (k / lsCols tensors * lsMaxH tensors + r)
        (k % lsCols tensors * lsMaxW tensors + c)
      = gridGet ((layerGrids tensors).getD k []) r c := by
  have hcols := lsCols_pos tensors hne
  have hsubmem : (layerGrids tensors).getD k [] ∈ layerGrids tensors := by
    rw [getD_of_lt _ _ _ hk]
    exact List.getElem_mem hk
  have hrmax : r < lsMaxH tensors :=
    lt_of_lt_of_le hr (layerGrids_height_le tensors _ hsubmem)
  have hcmax : c < lsMaxW tensors :=
    lt_of_lt_of_le hc (layerGrids_width_le tensors _ hsubmem r (le_of_lt hr))
  have hrg : k / lsCols tensors * lsMaxH tensors + r
      < lsRows tensors * lsMaxH tensors :=
    block_off_lt _ _ _ _ (div_lsCols_lt_lsRows tensors hne k hk) hrmax
  rw [layerSeparated_of_ne tensors hne]
  apply tile_value
  · exact fun sub hs => layerGrids_height_le tensors sub hs
  · exact fun sub hs r' h' => layerGrids_width_le tensors sub hs r' h'
  · exact hk
  · exact hr
  · exact hc
  · rw [zerosGrid_length]; exact hrg
  · rw [zerosGrid_row_length _ _ _ hrg]
    exact block_off_lt _ _ _ _ (Nat.mod_lt _ hcols) hcmax

/-- A cell of the final LayerSeparated grid not covered by any tile's
sub-grid extent is zero. -/
theorem layerSeparated_tile_zero (tensors : TensorCollection)
    (hne : layerGrids tensors ≠ []) (R C : Nat)
    (h : ∀ k, k < (layerGrids tensors).length
      → ∀ r, r < ((layerGrids tensors).getD k []).length
      → ∀ c, c < (((layerGrids tensors).getD k []).getD r []).length
      → (R, C) ≠ (k / lsCols tensors * lsMaxH tensors + r,
          k % lsCols tensors * lsMaxW tensors + c)) :
    gridGet (LayerSeparatedTransformer.transform tensors) R C = 0 := by
  rw [layerSeparated_of_ne tensors hne]
  rw [applyPlaces_untouched, gridGet_zerosGrid]
  intro hmem
  rw [mem_placeCells_tile] at hmem
  obtain ⟨k, hk, r, hr, c, hc, heq⟩ := hmem
  exact h k hk r hr c hc heq

/-! ## SpiralTransformer (builtin.py, lines 92–150)

`_generate_spiral` is a `while` loop; it is embedded with explicit
loop fuel (`spiralRounds`), and `spiral_fuel_irrelevant` below shows
any fuel of at least `2 * (size / 2 + 1)` produces the same output,
i.e. the Python loop terminates with exactly that result. -/

/-- `directions = [(0, 1), (1, 0), (0, -1), (-1, 0)]`
(right, down, left, up in (row, col) coordinates). -/
def directions : List (ℤ × ℤ) := [(0, 1), (1, 0), (0, -1), (-1, 0)]

/-- Result of one leg of the spiral walk. -/
structure LegResult where
  x : ℤ
  y : ℤ
  coords : List (Nat × Nat)
  returned : Bool
  deriving Repr, DecidableEq

/-- One leg `for _ in range(steps)`: step, record the coordinate when
in bounds, and fire the early `return coords` as soon as
`len(coords) >= size * size`. -/
def spiralLeg (size : Nat) : Nat → ℤ → ℤ → ℤ → ℤ → List (Nat × Nat) → LegResult
  | 0, x, y, _, _, coords => ⟨x, y, coords, false⟩
  | n + 1, x, y, dx, dy, coords =>
    let x' := x + dx
    let y' := y + dy
    let coords' :=
      if 0 ≤ x' ∧ x' < (size : ℤ) ∧ 0 ≤ y' ∧ y' < (size : ℤ)
      then coords ++ [(x'.toNat, y'.toNat)] else coords
    if size * size ≤ coords'.length then ⟨x', y', coords', true⟩
    else spiralLeg size n x' y' dx dy coords'

/-- The `while len(coords) < size * size` loop: two legs with the
current `steps`, advancing `dir_idx` after each leg, then
`steps += 1`; `fuel` bounds the number of iterations. -/
def spiralRounds (size : Nat) : Nat → ℤ → ℤ → Nat → Nat → List (Nat × Nat) → List (Nat × Nat)
  | 0, _, _, _, _, coords => coords
  | fuel + 1, x, y, dir_idx, steps, coords =>
    if coords.length < size * size then
      let d1 := directions.getD dir_idx (0, 0)
      let r1 := spiralLeg size steps x y d1.1 d1.2 coords
      if r1.returned then r1.coords
      else
        let dir_idx2 := (dir_idx + 1) % 4
        let d2 := directions.getD dir_idx2 (0, 0)
        let r2 := spiralLeg size steps r1.x r1.y d2.1 d2.2 r1.coords
        if r2.returned then r2.coords
        else spiralRounds size fuel r2.x r2.y ((dir_idx2 + 1) % 4) (steps + 1) r2.coords
    else coords

/-- `SpiralTransformer._generate_spiral(size)`: start at
`(size // 2, size // 2)` (recorded unconditionally), `dir_idx = 0`,
`steps = 1`. -/
def generateSpiral (size : Nat) : List (Nat × Nat) :=
  spiralRounds size (2 * (size / 2 + 1)) ((size / 2 : Nat) : ℤ) ((size / 2 : Nat) : ℤ)
    0 1 [(size / 2, size / 2)]

/-- `SpiralTransformer.transform`: same flat-value accumulation and
grid size as Flatten, then
`for i, val in enumerate(flat_values[:len(coords)]):
     grid[coords[i]] = val`. -/
def SpiralTransformer.transform (tensors : TensorCollection) : Grid :=
  let flat0 := flatValues tensors
  let flat_values := if flat0 = [] then [0] else flat0
  let size := ceilSqrt flat_values.length
  let coords := generateSpiral size
  applyPlaces (zerosGrid size size)
    ((flat_values.take coords.length).enum.map
      (fun iv => ((coords.getD iv.1 (0, 0)).1, (coords.getD iv.1 (0, 0)).2, iv.2)))

/-! ### The pure (unclipped) spiral walk -/

/-- The `n` positions passed through by walking `n` single steps from
`(x, y)` in direction `(dx, dy)` (start excluded). -/
def legPts (x y dx dy : ℤ) : Nat → List (ℤ × ℤ)
  | 0 => []
  | n + 1 => (x + dx, y + dy) :: legPts (x + dx) (y + dy) dx dy n

/-- Positions passed through by `fuel` while-iterations of the
unclipped walk (mirrors `spiralRounds` without clipping or early
return). -/
def roundPts (x y : ℤ) (dir_idx steps : Nat) : Nat → List (ℤ × ℤ)
  | 0 => []
  | fuel + 1 =>
    let d1 := directions.getD dir_idx (0, 0)
    let e1 : ℤ × ℤ := (x + steps * d1.1, y + steps * d1.2)
    let dir_idx2 := (dir_idx + 1) % 4
    let d2 := directions.getD dir_idx2 (0, 0)
    let e2 : ℤ × ℤ := (e1.1 + steps * d2.1, e1.2 + steps * d2.2)
    legPts x y d1.1 d1.2 steps ++ legPts e1.1 e1.2 d2.1 d2.2 steps
      ++ roundPts e2.1 e2.2 ((dir_idx2 + 1) % 4) (steps + 1) fuel

/-- State (position, direction index, steps) after `fuel`
while-iterations of the unclipped walk. -/
def roundState (x y : ℤ) (dir_idx steps : Nat) : Nat → ℤ × ℤ × Nat × Nat
  | 0 => (x, y, dir_idx, steps)
  | fuel + 1 =>
    let d1 := directions.getD dir_idx (0, 0)
    let e1 : ℤ × ℤ := (x + steps * d1.1, y + steps * d1.2)
    let dir_idx2 := (dir_idx + 1) % 4
    let d2 := directions.getD dir_idx2 (0, 0)
    let e2 : ℤ × ℤ := (e1.1 + steps * d2.1, e1.2 + steps * d2.2)
    roundState e2.1 e2.2 ((dir_idx2 + 1) % 4) (steps + 1) fuel

/-- Clip to the grid: keep in-bounds positions, as `Nat` pairs. -/
def clipFilter (size : Nat) (pts : List (ℤ × ℤ)) : List (Nat × Nat) :=
  (pts.filter (fun p => decide (0 ≤ p.1 ∧ p.1 < (size : ℤ) ∧ 0 ≤ p.2 ∧ p.2 < (size : ℤ)))).map
    (fun p => (p.1.toNat, p.2.toNat))

theorem clipFilter_nil (size : Nat) : clipFilter size [] = [] := rfl

theorem clipFilter_append (size : Nat) (a b : List (ℤ × ℤ)) :
    clipFilter size (a ++ b) = clipFilter size a ++ clipFilter size b := by
  simp [clipFilter]

theorem mem_clipFilter (size : Nat) (pts : List (ℤ × ℤ)) (q : Nat × Nat) :
    q ∈ clipFilter size pts
      ↔ ∃ p ∈ pts, (0 ≤ p.1 ∧ p.1 < (size : ℤ) ∧ 0 ≤ p.2 ∧ p.2 < (size : ℤ))
          ∧ q = (p.1.toNat, p.2.toNat) := by
  simp only [clipFilter, List.mem_map, List.mem_filter, decide_eq_true_eq]
  constructor
  · rintro ⟨p, ⟨hp, hb⟩, rfl⟩
    exact ⟨p, hp, hb, rfl⟩
  · rintro ⟨p, hp, hb, rfl⟩
    exact ⟨p, ⟨hp, hb⟩, rfl⟩

theorem clipFilter_nodup (size : Nat) (pts : List (ℤ × ℤ)) (h : pts.Nodup) :
    (clipFilter size pts).Nodup := by
  apply List.Nodup.map_on _ (List.Nodup.filter _ h)
  intro p hp p' hp' heq
  rw [List.mem_filter, decide_eq_true_eq] at hp hp'
  obtain ⟨h1, h2⟩ := Prod.mk.injEq _ _ _ _ ▸ heq
  have := congrArg Prod.fst heq
  have := congrArg Prod.snd heq
  apply Prod.ext
  · omega
  · omega

theorem clipFilter_cons_of_mem (size : Nat) (p : ℤ × ℤ) (ps : List (ℤ × ℤ))
    (hb : 0 ≤ p.1 ∧ p.1 < (size : ℤ) ∧ 0 ≤ p.2 ∧ p.2 < (size : ℤ)) :
    clipFilter size (p :: ps) = (p.1.toNat, p.2.toNat) :: clipFilter size ps := by
  simp [clipFilter, List.filter_cons, hb]

theorem clipFilter_cons_of_not_mem (size : Nat) (p : ℤ × ℤ) (ps : List (ℤ × ℤ))
    (hb : ¬(0 ≤ p.1 ∧ p.1 < (size : ℤ) ∧ 0 ≤ p.2 ∧ p.2 < (size : ℤ))) :
    clipFilter size (p :: ps) = clipFilter size ps := by
  simp [clipFilter, List.filter_cons, hb]

/-- What one leg of `_generate_spiral` computes, in terms of the pure
walk: it appends the clipped leg positions, truncated so the
collection never exceeds `size * size` entries; the early return fires
exactly when the clipped leg reaches that bound, and otherwise the
walker ends the leg at `(x + n·dx, y + n·dy)`. -/
theorem spiralLeg_spec (size : Nat) (n : Nat) (x y dx dy : ℤ)
    (coords : List (Nat × Nat)) (h : coords.length < size * size) :
    (spiralLeg size n x y dx dy coords).coords
        = coords ++ (clipFilter size (legPts x y dx dy n)).take
            (size * size - coords.length)
      ∧ (spiralLeg size n x y dx dy coords).returned
          = decide (size * size
              ≤ coords.length + (clipFilter size (legPts x y dx dy n)).length)
      ∧ ((spiralLeg size n x y dx dy coords).returned = false
          → (spiralLeg size n x y dx dy coords).x = x + n * dx
            ∧ (spiralLeg size n x y dx dy coords).y = y + n * dy) := by
  induction n generalizing x y coords with
  | zero =>
      refine ⟨by simp [spiralLeg, legPts, clipFilter], ?_, ?_⟩
      · simp only [spiralLeg, legPts, clipFilter, List.filter_nil, List.map_nil,
          List.length_nil, Nat.add_zero]
        rw [eq_comm, decide_eq_false_iff_not]
        omega
      · intro _
        simp [spiralLeg]
  | succ n ih =>
      rw [show legPts x y dx dy (n + 1)
        = (x + dx, y + dy) :: legPts (x + dx) (y + dy) dx dy n from rfl]
      simp only [spiralLeg]
      by_cases hb : 0 ≤ x + dx ∧ x + dx < (size : ℤ) ∧ 0 ≤ y + dy ∧ y + dy < (size : ℤ)
      · rw [clipFilter_cons_of_mem _ _ _ hb]
        rw [if_pos hb]
        by_cases hret : size * size ≤ (coords ++ [((x + dx).toNat, (y + dy).toNat)]).length
        · rw [if_pos hret]
          simp only [List.length_append, List.length_cons, List.length_nil] at hret
          refine ⟨?_, ?_, ?_⟩
          · rw [show size * size - coords.length = 1 from by omega]
            simp
          · rw [eq_comm]
            simp only [List.length_cons, decide_eq_true_eq]
            omega
          · intro hcon
            simp at hcon
        · rw [if_neg hret]
          simp only [List.length_append, List.length_cons, List.length_nil] at hret
          have hlen : (coords ++ [((x + dx).toNat, (y + dy).toNat)]).length
              < size * size := by simp; omega
          obtain ⟨ih1, ih2, ih3⟩ := ih (x + dx) (y + dy)
            (coords ++ [((x + dx).toNat, (y + dy).toNat)]) hlen
          refine ⟨?_, ?_, ?_⟩
          · rw [ih1, List.append_assoc]
            congr 1
            simp only [List.length_append, List.length_cons, List.length_nil]
            rw [show size * size - coords.length
              = (size * size - (coords.length + 1)) + 1 from by omega]
            simp [List.take_succ_cons]
          · rw [ih2]
            rw [decide_eq_decide]
            simp only [List.length_append, List.length_cons, List.length_nil]
            omega
          · intro hfalse
            obtain ⟨hx, hy⟩ := ih3 hfalse
            refine ⟨?_, ?_⟩
            · rw [hx]; push_cast; ring
            · rw [hy]; push_cast; ring
      · rw [clipFilter_cons_of_not_mem _ _ _ hb]
        rw [if_neg hb]
        rw [if_neg (show ¬ size * size ≤ coords.length from by omega)]
        obtain ⟨ih1, ih2, ih3⟩ := ih (x + dx) (y + dy) coords h
        refine ⟨ih1, ih2, ?_⟩
        intro hfalse
        obtain ⟨hx, hy⟩ := ih3 hfalse
        refine ⟨?_, ?_⟩
        · rw [hx]; push_cast; ring
        · rw [hy]; push_cast; ring

theorem take_append_ge {α : Type} (l1 l2 : List α) (n : Nat) (h : l1.length ≤ n) :
    (l1 ++ l2).take n = l1 ++ l2.take (n - l1.length) := by
  induction l1 generalizing n with
  | nil => simp
  | cons a l ih =>
      cases n with
      | zero => simp at h
      | succ n =>
          simp only [List.cons_append, List.take_succ_cons, List.length_cons]
          rw [ih n (by simpa using h)]
          rw [show n + 1 - (l.length + 1) = n - l.length from by omega]

theorem take_append_le {α : Type} (l1 l2 : List α) (n : Nat) (h : n ≤ l1.length) :
    (l1 ++ l2).take n = l1.take n := by
  induction l1 generalizing n with
  | nil => simp at h; simp [h]
  | cons a l ih =>
      cases n with
      | zero => simp
      | succ n =>
          simp only [List.cons_append, List.take_succ_cons]
          rw [ih n (by simpa using h)]

/-- What the fueled `while` loop computes, in terms of the pure walk:
starting from a not-overfull collection, it appends the clipped walk
positions truncated at `size * size` total entries. -/
theorem spiralRounds_spec (size : Nat) (fuel : Nat) (x y : ℤ) (dir_idx steps : Nat)
    (coords : List (Nat × Nat)) (h : coords.length ≤ size * size) :
    spiralRounds size fuel x y dir_idx steps coords
      = coords ++ (clipFilter size (roundPts x y dir_idx steps fuel)).take
          (size * size - coords.length) := by
  induction fuel generalizing x y dir_idx steps coords with
  | zero => simp [spiralRounds, roundPts, clipFilter]
  | succ fuel ih =>
      simp only [spiralRounds, roundPts]
      by_cases hlt : coords.length < size * size
      · rw [if_pos hlt]
        set d1 : ℤ × ℤ := directions.getD dir_idx (0, 0) with hd1
        set d2 : ℤ × ℤ := directions.getD ((dir_idx + 1) % 4) (0, 0) with hd2
        set A := clipFilter size (legPts x y d1.1 d1.2 steps) with hA
        obtain ⟨l1c, l1r, l1p⟩ := spiralLeg_spec size steps x y d1.1 d1.2 coords hlt
        rw [← hA] at l1c l1r
        rw [clipFilter_append, clipFilter_append, ← hA]
        by_cases hr1 : (spiralLeg size steps x y d1.1 d1.2 coords).returned = true
        · rw [if_pos hr1, l1c]
          rw [hr1] at l1r
          have hL1 : size * size ≤ coords.length + A.length := by
            have h' := l1r.symm
            rwa [decide_eq_true_iff] at h'
          rw [take_append_le _ _ _ (by simp only [List.length_append]; omega),
            take_append_le _ _ _ (by omega)]
        · rw [if_neg hr1]
          rw [Bool.not_eq_true] at hr1
          rw [hr1] at l1r
          have hL1 : ¬ (size * size ≤ coords.length + A.length) := by
            have h' := l1r.symm
            rw [decide_eq_false_iff_not] at h'
            exact h'
          obtain ⟨hpx, hpy⟩ := l1p hr1
          rw [hpx, hpy, l1c]
          rw [List.take_of_length_le (by omega)]
          set B := clipFilter size
            (legPts (x + steps * d1.1) (y + steps * d1.2) d2.1 d2.2 steps) with hB
          have hlen1 : (coords ++ A).length < size * size := by
            simp only [List.length_append]; omega
          obtain ⟨l2c, l2r, l2p⟩ := spiralLeg_spec size steps
            (x + steps * d1.1) (y + steps * d1.2) d2.1 d2.2 (coords ++ A) hlen1
          rw [← hB] at l2c l2r
          by_cases hr2 : (spiralLeg size steps
              (x + steps * d1.1) (y + steps * d1.2) d2.1 d2.2
              (coords ++ A)).returned = true
          · rw [if_pos hr2, l2c]
            rw [hr2] at l2r
            have hL2 : size * size ≤ (coords ++ A).length + B.length := by
              have h' := l2r.symm
              rwa [decide_eq_true_iff] at h'
            simp only [List.length_append] at hL2
            rw [take_append_le _ _ _ (by simp only [List.length_append]; omega)]
            rw [take_append_ge _ _ _ (by omega)]
            rw [show size * size - coords.length - A.length
              = size * size - (coords ++ A).length from by
                simp only [List.length_append]; omega]
            rw [List.append_assoc]
          · rw [if_neg hr2]
            rw [Bool.not_eq_true] at hr2
            rw [hr2] at l2r
            have hL2 : ¬ (size * size ≤ (coords ++ A).length + B.length) := by
              have h' := l2r.symm
              rw [decide_eq_false_iff_not] at h'
              exact h'
            simp only [List.length_append] at hL2
            obtain ⟨hpx2, hpy2⟩ := l2p hr2
            rw [hpx2, hpy2, l2c]
            rw [List.take_of_length_le (by simp only [List.length_append]; omega)]
            rw [ih _ _ _ _ _ (by simp only [List.length_append]; omega)]
            rw [take_append_ge _ _ _ (by simp only [List.length_append]; omega)]
            simp only [List.length_append]
            rw [show size * size - (coords.length + A.length + B.length)
              = size * size - coords.length - (A.length + B.length) from by omega]
            simp [List.append_assoc]
      · rw [if_neg hlt]
        rw [show size * size - coords.length = 0 from by omega]
        simp

/-- Closed form of `_generate_spiral`. -/
theorem generateSpiral_eq (size : Nat) (h : 1 ≤ size) :
    generateSpiral size
      = ((size / 2 : Nat), (size / 2 : Nat)) :: (clipFilter size
          (roundPts ((size / 2 : Nat) : ℤ) ((size / 2 : Nat) : ℤ) 0 1
            (2 * (size / 2 + 1)))).take
          (size * size - 1) := by
  unfold generateSpiral
  rw [spiralRounds_spec _ _ _ _ _ _ _
    (by simp only [List.length_singleton]; nlinarith)]
  simp

/-! ### Geometry of the pure walk -/

theorem legPts_eq_map (x y dx dy : ℤ) (n : Nat) :
    legPts x y dx dy n
      = (List.range n).map
          (fun t : Nat => (x + ((t : ℤ) + 1) * dx, y + ((t : ℤ) + 1) * dy)) := by
  induction n generalizing x y with
  | zero => rfl
  | succ n ih =>
      rw [show legPts x y dx dy (n + 1)
        = (x + dx, y + dy) :: legPts (x + dx) (y + dy) dx dy n from rfl]
      rw [ih, List.range_succ_eq_map, List.map_cons, List.map_map]
      congr 1
      · rw [Prod.mk.injEq]
        constructor <;> (push_cast; ring)
      · apply List.map_congr_left
        intro t _
        simp only [Function.comp, Nat.succ_eq_add_one]
        rw [Prod.mk.injEq]
        constructor <;> (push_cast; ring)

theorem mem_legPts (x y dx dy : ℤ) (n : Nat) (p : ℤ × ℤ) :
    p ∈ legPts x y dx dy n
      ↔ ∃ t, t < n ∧ p = (x + ((t : ℤ) + 1) * dx, y + ((t : ℤ) + 1) * dy) := by
  rw [legPts_eq_map]
  simp only [List.mem_map, List.mem_range]
  constructor
  · rintro ⟨t, ht, rfl⟩
    exact ⟨t, ht, rfl⟩
  · rintro ⟨t, ht, rfl⟩
    exact ⟨t, ht, rfl⟩

theorem mem_legPts_right (x y : ℤ) (n : Nat) (p : ℤ × ℤ) :
    p ∈ legPts x y 0 1 n ↔ p.1 = x ∧ y + 1 ≤ p.2 ∧ p.2 ≤ y + n := by
  rw [mem_legPts]
  constructor
  · rintro ⟨t, ht, rfl⟩
    simp only [Int.mul_zero, Int.add_zero, Int.mul_one]
    refine ⟨by trivial, by omega, by omega⟩
  · rintro ⟨h1, h2, h3⟩
    refine ⟨(p.2 - y - 1).toNat, by omega, ?_⟩
    rw [Prod.ext_iff]
    simp only [Int.mul_zero, Int.add_zero, Int.mul_one]
    omega

theorem mem_legPts_down (x y : ℤ) (n : Nat) (p : ℤ × ℤ) :
    p ∈ legPts x y 1 0 n ↔ p.2 = y ∧ x + 1 ≤ p.1 ∧ p.1 ≤ x + n := by
  rw [mem_legPts]
  constructor
  · rintro ⟨t, ht, rfl⟩
    simp only [Int.mul_zero, Int.add_zero, Int.mul_one]
    refine ⟨by trivial, by omega, by omega⟩
  · rintro ⟨h1, h2, h3⟩
    refine ⟨(p.1 - x - 1).toNat, by omega, ?_⟩
    rw [Prod.ext_iff]
    simp only [Int.mul_zero, Int.add_zero, Int.mul_one]
    omega

theorem mem_legPts_left (x y : ℤ) (n : Nat) (p : ℤ × ℤ) :
    p ∈ legPts x y 0 (-1) n ↔ p.1 = x ∧ y - n ≤ p.2 ∧ p.2 ≤ y - 1 := by
  rw [mem_legPts]
  constructor
  · rintro ⟨t, ht, rfl⟩
    simp only [Int.mul_zero, Int.add_zero, Int.mul_neg, Int.mul_one]
    refine ⟨by trivial, by omega, by omega⟩
  · rintro ⟨h1, h2, h3⟩
    refine ⟨(y - 1 - p.2).toNat, by omega, ?_⟩
    rw [Prod.ext_iff]
    simp only [Int.mul_zero, Int.add_zero, Int.mul_neg, Int.mul_one]
    omega

theorem mem_legPts_up (x y : ℤ) (n : Nat) (p : ℤ × ℤ) :
    p ∈ legPts x y (-1) 0 n ↔ p.2 = y ∧ x - n ≤ p.1 ∧ p.1 ≤ x - 1 := by
  rw [mem_legPts]
  constructor
  · rintro ⟨t, ht, rfl⟩
    simp only [Int.mul_zero, Int.add_zero, Int.mul_neg, Int.mul_one]
    refine ⟨by trivial, by omega, by omega⟩
  · rintro ⟨h1, h2, h3⟩
    refine ⟨(x - 1 - p.1).toNat, by omega, ?_⟩
    rw [Prod.ext_iff]
    simp only [Int.mul_zero, Int.add_zero, Int.mul_neg, Int.mul_one]
    omega

theorem nodup_legPts (x y dx dy : ℤ) (n : Nat) (h : dx ≠ 0 ∨ dy ≠ 0) :
    (legPts x y dx dy n).Nodup := by
  rw [legPts_eq_map]
  apply List.Nodup.map_on _ (List.nodup_range n)
  intro t ht t' ht' heq
  rw [Prod.mk.injEq] at heq
  obtain ⟨h1, h2⟩ := heq
  rcases h with h | h
  · have : ((t : ℤ) + 1) * dx = ((t' : ℤ) + 1) * dx := by omega
    have := mul_right_cancel₀ h this
    omega
  · have : ((t : ℤ) + 1) * dy = ((t' : ℤ) + 1) * dy := by omega
    have := mul_right_cancel₀ h this
    omega

theorem roundState_add (x y : ℤ) (d s : Nat) (a b : Nat) :
    roundState x y d s (a + b)
      = roundState (roundState x y d s a).1 (roundState x y d s a).2.1
          (roundState x y d s a).2.2.1 (roundState x y d s a).2.2.2 b := by
  induction a generalizing x y d s with
  | zero => rw [Nat.zero_add]; rfl
  | succ a ih =>
      rw [show a + 1 + b = (a + b) + 1 from by omega]
      rw [show roundState x y d s ((a + b) + 1)
        = roundState (x + s * (directions.getD d (0, 0)).1
              + s * (directions.getD ((d + 1) % 4) (0, 0)).1)
            (y + s * (directions.getD d (0, 0)).2
              + s * (directions.getD ((d + 1) % 4) (0, 0)).2)
            (((d + 1) % 4 + 1) % 4) (s + 1) (a + b) from rfl]
      rw [ih]
      rfl

theorem roundPts_add (x y : ℤ) (d s : Nat) (a b : Nat) :
    roundPts x y d s (a + b)
      = roundPts x y d s a
        ++ roundPts (roundState x y d s a).1 (roundState x y d s a).2.1
            (roundState x y d s a).2.2.1 (roundState x y d s a).2.2.2 b := by
  induction a generalizing x y d s with
  | zero => rw [Nat.zero_add]; rfl
  | succ a ih =>
      rw [show a + 1 + b = (a + b) + 1 from by omega]
      rw [show roundPts x y d s ((a + b) + 1)
        = legPts x y (directions.getD d (0, 0)).1 (directions.getD d (0, 0)).2 s
          ++ legPts (x + s * (directions.getD d (0, 0)).1)
              (y + s * (directions.getD d (0, 0)).2)
              (directions.getD ((d + 1) % 4) (0, 0)).1
              (directions.getD ((d + 1) % 4) (0, 0)).2 s
          ++ roundPts (x + s * (directions.getD d (0, 0)).1
                + s * (directions.getD ((d + 1) % 4) (0, 0)).1)
              (y + s * (directions.getD d (0, 0)).2
                + s * (directions.getD ((d + 1) % 4) (0, 0)).2)
              (((d + 1) % 4 + 1) % 4) (s + 1) (a + b) from rfl]
      rw [ih]
      rw [show roundPts x y d s (a + 1)
        = legPts x y (directions.getD d (0, 0)).1 (directions.getD d (0, 0)).2 s
          ++ legPts (x + s * (directions.getD d (0, 0)).1)
              (y + s * (directions.getD d (0, 0)).2)
              (directions.getD ((d + 1) % 4) (0, 0)).1
              (directions.getD ((d + 1) % 4) (0, 0)).2 s
          ++ roundPts (x + s * (directions.getD d (0, 0)).1
                + s * (directions.getD ((d + 1) % 4) (0, 0)).1)
              (y + s * (directions.getD d (0, 0)).2
                + s * (directions.getD ((d + 1) % 4) (0, 0)).2)
              (((d + 1) % 4 + 1) % 4) (s + 1) a from rfl]
      rw [show roundState x y d s (a + 1)
        = roundState (x + s * (directions.getD d (0, 0)).1
              + s * (directions.getD ((d + 1) % 4) (0, 0)).1)
            (y + s * (directions.getD d (0, 0)).2
              + s * (directions.getD ((d + 1) % 4) (0, 0)).2)
            (((d + 1) % 4 + 1) % 4) (s + 1) a from rfl]
      simp [List.append_assoc]

/-- Two while-iterations starting with `dir_idx = 0` walk
right `s`, down `s`, left `s + 1`, up `s + 1`, ending one cell
up-and-left of the start with `dir_idx = 0` again. -/
theorem roundState_two (x y : ℤ) (s : Nat) :
    roundState x y 0 s 2 = (x - 1, y - 1, 0, s + 2) := by
  simp only [roundState, directions]
  norm_num
  constructor <;> (push_cast; ring)

theorem roundPts_two (x y : ℤ) (s : Nat) :
    roundPts x y 0 s 2
      = legPts x y 0 1 s ++ legPts x (y + s) 1 0 s
        ++ legPts (x + s) (y + s) 0 (-1) (s + 1)
        ++ legPts (x + s) (y - 1) (-1) 0 (s + 1) := by
  show legPts x y (directions.getD 0 (0, 0)).1 (directions.getD 0 (0, 0)).2 s
      ++ legPts (x + s * (directions.getD 0 (0, 0)).1)
          (y + s * (directions.getD 0 (0, 0)).2)
          (directions.getD 1 (0, 0)).1 (directions.getD 1 (0, 0)).2 s
      ++ (legPts (x + s * (directions.getD 0 (0, 0)).1
              + s * (directions.getD 1 (0, 0)).1)
            (y + s * (directions.getD 0 (0, 0)).2
              + s * (directions.getD 1 (0, 0)).2)
            (directions.getD 2 (0, 0)).1 (directions.getD 2 (0, 0)).2 (s + 1)
          ++ legPts (x + s * (directions.getD 0 (0, 0)).1
                + s * (directions.getD 1 (0, 0)).1
                + (s + 1) * (directions.getD 2 (0, 0)).1)
              (y + s * (directions.getD 0 (0, 0)).2
                + s * (directions.getD 1 (0, 0)).2
                + (s + 1) * (directions.getD 2 (0, 0)).2)
              (directions.getD 3 (0, 0)).1 (directions.getD 3 (0, 0)).2 (s + 1)
          ++ []) = _
  simp only [directions, List.getD_cons_zero, List.getD_cons_succ]
  norm_num
  ring_nf

theorem roundState_even (x y : ℤ) (k : Nat) :
    roundState x y 0 1 (2 * k) = (x - k, y - k, 0, 2 * k + 1) := by
  induction k with
  | zero => norm_num [roundState]
  | succ k ih =>
      rw [show 2 * (k + 1) = 2 * k + 2 from by ring]
      rw [roundState_add, ih]
      dsimp only
      rw [roundState_two]
      simp only [Prod.mk.injEq]
      refine ⟨by push_cast; ring, by push_cast; ring, trivial⟩

/-- The central invariant: after `2k` while-iterations from `(a, b)`,
the unclipped walk has visited exactly the rectangle
`[a-k+1, a+k] × [b-k, b+k]` plus the corner `(a-k, b-k)` where it now
stands, each point exactly once. -/
theorem spiral_invariant (a b : ℤ) (k : Nat) :
    ((a, b) :: roundPts a b 0 1 (2 * k)).Nodup
    ∧ (∀ p : ℤ × ℤ, p ∈ (a, b) :: roundPts a b 0 1 (2 * k)
        ↔ (a - k + 1 ≤ p.1 ∧ p.1 ≤ a + k ∧ b - k ≤ p.2 ∧ p.2 ≤ b + k)
          ∨ p = (a - k, b - k)) := by
  induction k with
  | zero =>
      constructor
      · show ((a, b) :: roundPts a b 0 1 0).Nodup
        simp [roundPts]
      · intro p
        obtain ⟨p1, p2⟩ := p
        show (p1, p2) ∈ (a, b) :: roundPts a b 0 1 0 ↔ _
        simp only [roundPts, List.mem_singleton, Prod.ext_iff, Prod.mk.injEq]
        push_cast
        constructor
        · rintro ⟨rfl, rfl⟩
          simp
        · rintro (⟨h1, h2, h3, h4⟩ | ⟨h1, h2⟩) <;> constructor <;> omega
  | succ k ih =>
      obtain ⟨ihN, ihM⟩ := ih
      rw [show 2 * (k + 1) = 2 * k + 2 from by ring, roundPts_add, roundState_even]
      dsimp only
      rw [roundPts_two]
      rw [show ∀ (L M : List (ℤ × ℤ)), (a, b) :: (L ++ M) = ((a, b) :: L) ++ M
        from fun L M => rfl]
      have hl1 : ∀ p : ℤ × ℤ, p ∈ legPts (a - (k : ℤ)) (b - (k : ℤ)) 0 1 (2 * k + 1)
          ↔ p.1 = a - (k : ℤ) ∧ b - (k : ℤ) + 1 ≤ p.2
            ∧ p.2 ≤ b - (k : ℤ) + (2 * (k : ℤ) + 1) := by
        intro p
        rw [mem_legPts_right]
        push_cast
        tauto
      have hl2 : ∀ p : ℤ × ℤ, p ∈ legPts (a - (k : ℤ)) (b - (k : ℤ) + ((2 * k + 1 : Nat) : ℤ))
            1 0 (2 * k + 1)
          ↔ p.2 = b + (k : ℤ) + 1 ∧ a - (k : ℤ) + 1 ≤ p.1
            ∧ p.1 ≤ a + (k : ℤ) + 1 := by
        intro p
        rw [mem_legPts_down]
        push_cast
        constructor
        · rintro ⟨h1, h2, h3⟩
          refine ⟨by omega, by omega, by omega⟩
        · rintro ⟨h1, h2, h3⟩
          refine ⟨by omega, by omega, by omega⟩
      have hl3 : ∀ p : ℤ × ℤ, p ∈ legPts (a - (k : ℤ) + ((2 * k + 1 : Nat) : ℤ))
            (b - (k : ℤ) + ((2 * k + 1 : Nat) : ℤ)) 0 (-1) (2 * k + 1 + 1)
          ↔ p.1 = a + (k : ℤ) + 1 ∧ b - (k : ℤ) - 1 ≤ p.2
            ∧ p.2 ≤ b + (k : ℤ) := by
        intro p
        rw [mem_legPts_left]
        push_cast
        constructor
        · rintro ⟨h1, h2, h3⟩
          refine ⟨by omega, by omega, by omega⟩
        · rintro ⟨h1, h2, h3⟩
          refine ⟨by omega, by omega, by omega⟩
      have hl4 : ∀ p : ℤ × ℤ, p ∈ legPts (a - (k : ℤ) + ((2 * k + 1 : Nat) : ℤ))
            (b - (k : ℤ) - 1) (-1) 0 (2 * k + 1 + 1)
          ↔ p.2 = b - (k : ℤ) - 1 ∧ a - (k : ℤ) - 1 ≤ p.1
            ∧ p.1 ≤ a + (k : ℤ) := by
        intro p
        rw [mem_legPts_up]
        push_cast
        constructor
        · rintro ⟨h1, h2, h3⟩
          refine ⟨by omega, by omega, by omega⟩
        · rintro ⟨h1, h2, h3⟩
          refine ⟨by omega, by omega, by omega⟩
      constructor
      · rw [List.nodup_append, List.nodup_append, List.nodup_append,
          List.nodup_append]
        refine ⟨ihN, ⟨⟨⟨?_, ?_, ?_⟩, ?_, ?_⟩, ?_, ?_⟩, ?_⟩
        · exact nodup_legPts _ _ _ _ _ (Or.inr (by norm_num))
        · exact nodup_legPts _ _ _ _ _ (Or.inl (by norm_num))
        · intro p hp hq
          obtain ⟨p1, p2⟩ := p
          rw [hl1] at hp
          rw [hl2] at hq
          dsimp only at hp hq
          omega
        · exact nodup_legPts _ _ _ _ _ (Or.inr (by norm_num))
        · intro p hp hq
          obtain ⟨p1, p2⟩ := p
          rw [List.mem_append] at hp
          rw [hl3] at hq
          rcases hp with hp | hp
          · rw [hl1] at hp
            dsimp only at hp hq
            omega
          · rw [hl2] at hp
            dsimp only at hp hq
            omega
        · exact nodup_legPts _ _ _ _ _ (Or.inl (by norm_num))
        · intro p hp hq
          obtain ⟨p1, p2⟩ := p
          rw [List.mem_append, List.mem_append] at hp
          rw [hl4] at hq
          rcases hp with (hp | hp) | hp
          · rw [hl1] at hp
            dsimp only at hp hq
            omega
          · rw [hl2] at hp
            dsimp only at hp hq
            omega
          · rw [hl3] at hp
            dsimp only at hp hq
            omega
        · intro p hp hq
          obtain ⟨p1, p2⟩ := p
          have hp' := (ihM (p1, p2)).mp hp
          rw [List.mem_append, List.mem_append, List.mem_append] at hq
          rw [Prod.ext_iff] at hp'
          dsimp only at hp'
          rcases hq with ((hq | hq) | hq) | hq
          · rw [hl1] at hq
            dsimp only at hq
            omega
          · rw [hl2] at hq
            dsimp only at hq
            omega
          · rw [hl3] at hq
            dsimp only at hq
            omega
          · rw [hl4] at hq
            dsimp only at hq
            omega
      · intro p
        obtain ⟨p1, p2⟩ := p
        rw [List.mem_append, ihM (p1, p2)]
        rw [List.mem_append, List.mem_append, List.mem_append]
        rw [hl1, hl2, hl3, hl4]
        rw [Prod.ext_iff, Prod.ext_iff]
        dsimp only
        push_cast
        omega

/-- The full path of the generator, before clipping. -/
def spiralFullWalk (size : Nat) : List (ℤ × ℤ) :=
  ((size / 2 : Nat), (size / 2 : Nat))
    :: roundPts ((size / 2 : Nat) : ℤ) ((size / 2 : Nat) : ℤ) 0 1 (2 * (size / 2 + 1))

theorem generateSpiral_eq_clip (size : Nat) (h : 1 ≤ size) :
    generateSpiral size
      = (clipFilter size (spiralFullWalk size)).take (size * size) := by
  rw [generateSpiral_eq size h]
  unfold spiralFullWalk
  have hcb : (0 : ℤ) ≤ ((size / 2 : Nat) : ℤ) ∧ ((size / 2 : Nat) : ℤ) < (size : ℤ)
      ∧ (0 : ℤ) ≤ ((size / 2 : Nat) : ℤ) ∧ ((size / 2 : Nat) : ℤ) < (size : ℤ) := by
    refine ⟨by positivity, by push_cast; omega, by positivity, by push_cast; omega⟩
  rw [clipFilter_cons_of_mem _ _ _ hcb]
  rw [show size * size = (size * size - 1) + 1 from by
    have hss : 1 * 1 ≤ size * size := Nat.mul_le_mul h h
    omega]
  rw [List.take_succ_cons]
  simp
  omega

theorem spiralFullWalk_nodup (size : Nat) : (spiralFullWalk size).Nodup :=
  (spiral_invariant _ _ _).1

theorem mem_spiralFullWalk_of_box (size : Nat) (i j : Nat)
    (hi : i < size) (hj : j < size) :
    ((i : ℤ), (j : ℤ)) ∈ spiralFullWalk size := by
  unfold spiralFullWalk
  rw [(spiral_invariant ((size / 2 : Nat) : ℤ) ((size / 2 : Nat) : ℤ) (size / 2 + 1)).2]
  left
  push_cast
  omega

/-- All grid cells, row-major. -/
def allCells (size : Nat) : List (Nat × Nat) :=
  List.product (List.range size) (List.range size)

theorem allCells_nodup (size : Nat) : (allCells size).Nodup :=
  List.Nodup.product (List.nodup_range size) (List.nodup_range size)

theorem mem_allCells (size : Nat) (q : Nat × Nat) :
    q ∈ allCells size ↔ q.1 < size ∧ q.2 < size := by
  obtain ⟨i, j⟩ := q
  unfold allCells
  rw [show List.product (List.range size) (List.range size)
    = List.range size ×ˢ List.range size from rfl]
  rw [List.mem_product]
  simp

theorem allCells_length (size : Nat) : (allCells size).length = size * size := by
  unfold allCells
  rw [show List.product (List.range size) (List.range size)
    = List.range size ×ˢ List.range size from rfl]
  rw [List.length_product]
  simp

/-- The in-bounds clip of the full walk is a permutation of the whole
grid: the generated spiral path visits every cell exactly once. -/
theorem clip_spiralFullWalk_perm (size : Nat) (h : 1 ≤ size) :
    (clipFilter size (spiralFullWalk size)).Perm (allCells size) := by
  rw [List.perm_ext_iff_of_nodup
    (clipFilter_nodup _ _ (spiralFullWalk_nodup size)) (allCells_nodup size)]
  intro q
  rw [mem_allCells, mem_clipFilter]
  constructor
  · rintro ⟨p, _, hb, rfl⟩
    constructor <;> omega
  · rintro ⟨h1, h2⟩
    refine ⟨((q.1 : ℤ), (q.2 : ℤ)), mem_spiralFullWalk_of_box size q.1 q.2 h1 h2, ?_, ?_⟩
    · constructor
      · positivity
      · refine ⟨by push_cast; omega, by positivity, by push_cast; omega⟩
    · rw [Prod.ext_iff]
      constructor <;> simp

theorem clip_spiralFullWalk_length (size : Nat) (h : 1 ≤ size) :
    (clipFilter size (spiralFullWalk size)).length = size * size := by
  rw [(clip_spiralFullWalk_perm size h).length_eq, allCells_length]

/-- The generator returns the whole clip: exactly `size * size`
distinct in-bounds coordinates covering every grid cell. -/
theorem generateSpiral_spec (size : Nat) (h : 1 ≤ size) :
    (generateSpiral size).Nodup
    ∧ (generateSpiral size).length = size * size
    ∧ (∀ q ∈ generateSpiral size, q.1 < size ∧ q.2 < size)
    ∧ (∀ i j : Nat, i < size → j < size → (i, j) ∈ generateSpiral size) := by
  have heq : generateSpiral size = clipFilter size (spiralFullWalk size) := by
    rw [generateSpiral_eq_clip size h]
    apply List.take_of_length_le
    rw [clip_spiralFullWalk_length size h]
  rw [heq]
  refine ⟨clipFilter_nodup _ _ (spiralFullWalk_nodup size),
    clip_spiralFullWalk_length size h, ?_, ?_⟩
  · intro q hq
    rw [mem_clipFilter] at hq
    obtain ⟨p, _, hb, rfl⟩ := hq
    constructor <;> omega
  · intro i j hi hj
    rw [mem_clipFilter]
    refine ⟨((i : ℤ), (j : ℤ)), mem_spiralFullWalk_of_box size i j hi hj, ?_, ?_⟩
    · refine ⟨by positivity, by push_cast; omega, by positivity, by push_cast; omega⟩
    · rw [Prod.ext_iff]
      constructor <;> simp

/-- Any fuel at least `2 * (size / 2 + 1)` makes the embedded `while`
loop produce the same coordinate list: the Python loop terminates,
and `generateSpiral` is its value. -/
theorem spiral_fuel_irrelevant (size : Nat) (h : 1 ≤ size) (fuel : Nat)
    (hf : 2 * (size / 2 + 1) ≤ fuel) :
    spiralRounds size fuel ((size / 2 : Nat) : ℤ) ((size / 2 : Nat) : ℤ) 0 1
        [(size / 2, size / 2)]
      = generateSpiral size := by
  obtain ⟨extra, rfl⟩ := Nat.exists_eq_add_of_le hf
  have hss : 1 * 1 ≤ size * size := Nat.mul_le_mul h h
  have hclip : (clipFilter size (roundPts ((size / 2 : Nat) : ℤ) ((size / 2 : Nat) : ℤ)
      0 1 (2 * (size / 2 + 1)))).length = size * size - 1 := by
    have h1 := clip_spiralFullWalk_length size h
    unfold spiralFullWalk at h1
    rw [clipFilter_cons_of_mem _ _ _
      ⟨by positivity, by push_cast; omega, by positivity, by push_cast; omega⟩] at h1
    simp only [List.length_cons] at h1
    omega
  rw [spiralRounds_spec _ _ _ _ _ _ _ (by simp only [List.length_singleton]; omega)]
  unfold generateSpiral
  rw [spiralRounds_spec _ _ _ _ _ _ _ (by simp only [List.length_singleton]; omega)]
  rw [roundPts_add, clipFilter_append]
  rw [take_append_le _ _ _ (by rw [hclip]; simp only [List.length_singleton]; omega)]

/-! ### Spiral transform characterization -/

theorem spiral_places_eq (S : Nat) (fv : List Val)
    (hle : fv.length ≤ (generateSpiral S).length) :
    ((fv.take (generateSpiral S).length).enum.map
        (fun iv => (((generateSpiral S).getD iv.1 (0, 0)).1,
          ((generateSpiral S).getD iv.1 (0, 0)).2, iv.2)))
      = (List.range fv.length).map
          (fun i => (((generateSpiral S).getD i (0, 0)).1,
            ((generateSpiral S).getD i (0, 0)).2, fv.getD i 0)) := by
  rw [List.take_of_length_le hle]
  apply List.ext_getElem
  · simp
  · intro i h1 h2
    simp only [List.length_map, List.enum_length] at h1
    simp [List.getElem_enum, List.getD_eq_getElem?_getD, List.getElem?_eq_getElem h1]

/-- Cell values of the Spiral placement loop: the `i`-th flattened
scalar lands on the `i`-th path coordinate, untouched cells stay 0. -/
theorem spiral_fill_spec (S : Nat) (hS : 1 ≤ S) (fv : List Val)
    (hle : fv.length ≤ S * S) :
    (∀ i, i < fv.length →
      gridGet (applyPlaces (zerosGrid S S)
          ((fv.take (generateSpiral S).length).enum.map
            (fun iv => (((generateSpiral S).getD iv.1 (0, 0)).1,
              ((generateSpiral S).getD iv.1 (0, 0)).2, iv.2))))
        ((generateSpiral S).getD i (0, 0)).1 ((generateSpiral S).getD i (0, 0)).2
        = fv.getD i 0)
    ∧ (∀ r c, (∀ i, i < fv.length → (generateSpiral S).getD i (0, 0) ≠ (r, c)) →
      gridGet (applyPlaces (zerosGrid S S)
          ((fv.take (generateSpiral S).length).enum.map
            (fun iv => (((generateSpiral S).getD iv.1 (0, 0)).1,
              ((generateSpiral S).getD iv.1 (0, 0)).2, iv.2)))) r c = 0) := by
  obtain ⟨hnd, hlen, hbox, _⟩ := generateSpiral_spec S hS
  have hle' : fv.length ≤ (generateSpiral S).length := by omega
  rw [spiral_places_eq S fv hle']
  constructor
  · intro i hi
    set cs := generateSpiral S with hcs
    have hics : i < cs.length := by omega
    have hgetD : cs.getD i (0, 0) = cs[i] := getD_of_lt _ _ _ hics
    have hin : i < (List.range fv.length).length := by simpa using hi
    have hsplit : List.range fv.length
        = (List.range fv.length).take i ++ i :: (List.range fv.length).drop (i + 1) := by
      conv_lhs => rw [← List.take_append_drop i (List.range fv.length)]
      rw [List.drop_eq_getElem_cons hin, List.getElem_range]
    rw [hsplit, List.map_append, List.map_cons]
    apply applyPlaces_last_write
    · rw [zerosGrid_length, hgetD]
      exact (hbox _ (List.getElem_mem hics)).1
    · rw [zerosGrid_row_length _ _ _ (by rw [hgetD]; exact (hbox _ (List.getElem_mem hics)).1),
        hgetD]
      exact (hbox _ (List.getElem_mem hics)).2
    · intro hmem
      simp only [placeCells, List.map_map, List.mem_map, Function.comp] at hmem
      obtain ⟨j, hjmem, hjeq⟩ := hmem
      obtain ⟨k', hk', hkj'⟩ := List.getElem_of_mem hjmem
      rw [List.getElem_drop, List.getElem_range] at hkj'
      have hj : i < j ∧ j < fv.length := by
        constructor
        · omega
        · have := List.mem_of_mem_drop hjmem
          rw [List.mem_range] at this
          exact this
      have hjcs : j < cs.length := by omega
      have hgetDj : cs.getD j (0, 0) = cs[j] := getD_of_lt _ _ _ hjcs
      have heqcell : cs[j] = cs[i] := by
        have h1 : (cs.getD j (0, 0)).1 = (cs.getD i (0, 0)).1 := congrArg Prod.fst hjeq
        have h2 : (cs.getD j (0, 0)).2 = (cs.getD i (0, 0)).2 := congrArg Prod.snd hjeq
        rw [hgetD] at h1 h2
        rw [hgetDj] at h1 h2
        exact Prod.ext h1 h2
      have := (List.Nodup.getElem_inj_iff hnd).mp heqcell
      omega
  · intro r c hnot
    rw [applyPlaces_untouched, gridGet_zerosGrid]
    intro hmem
    simp only [placeCells, List.map_map, List.mem_map, Function.comp] at hmem
    obtain ⟨j, hjmem, hjeq⟩ := hmem
    rw [List.mem_range] at hjmem
    apply hnot j hjmem
    have h1 : ((generateSpiral S).getD j (0, 0)).1 = r := congrArg Prod.fst hjeq
    have h2 : ((generateSpiral S).getD j (0, 0)).2 = c := congrArg Prod.snd hjeq
    rw [Prod.ext_iff]
    exact ⟨h1, h2⟩

/-! ## TransformerPlugin and PluginRegistry
(plugins/base.py, plugins/registry.py, transformer.py) -/

/-- A transformer plugin instance: `name` plus the three-stage
pipeline (`preprocess` and `postprocess` default to the identity, as
in `TransformerPlugin`). -/
structure TransformerPlugin where
  name : String
  preprocess : TensorCollection → TensorCollection := id
  transform : TensorCollection → Grid
  postprocess : Grid → Grid := id

/-- `TransformerPlugin.__call__`:
`preprocess → transform → postprocess`. -/
def TransformerPlugin.call (p : TransformerPlugin) (tensors : TensorCollection) : Grid :=
  p.postprocess (p.transform (p.preprocess tensors))

/-- The argument passed to `register`: either a `TransformerPlugin`
instance or any other Python object (which fails the
`isinstance(plugin, TransformerPlugin)` contract check). -/
inductive RegisterArg where
  | plugin (p : TransformerPlugin)
  | notPlugin

/-- `self._plugins`: a Python dict in insertion order. -/
abbrev Registry := List (String × TransformerPlugin)

/-- `name in self._plugins`. -/
def dictContains (reg : Registry) (k : String) : Bool :=
  reg.any (fun q => q.1 = k)

/-- `self._plugins.get(name)`. -/
def dictGet (reg : Registry) (k : String) : Option TransformerPlugin :=
  (reg.find? (fun q => q.1 = k)).map Prod.snd

/-- `self._plugins[k] = v`: replace in place when the key exists,
else append (Python dict update semantics). -/
def dictSet (reg : Registry) (k : String) (v : TransformerPlugin) : Registry :=
  if dictContains reg k then reg.map (fun q => if q.1 = k then (k, v) else q)
  else reg ++ [(k, v)]

/-- `del self._plugins[k]`. -/
def dictDel (reg : Registry) (k : String) : Registry :=
  reg.filter (fun q => ¬ (q.1 = k))

/-- `PluginRegistry.register`: `TypeError` (the string) when the
argument is not a `TransformerPlugin` instance — the registry is
returned unchanged — otherwise insert/overwrite the slot at
`plugin.name`. -/
def PluginRegistry.register (reg : Registry) (arg : RegisterArg) :
    Registry × Option String :=
  match arg with
  | .notPlugin => (reg, some "Plugin must be instance of TransformerPlugin")
  | .plugin p => (dictSet reg p.name p, none)

/-- `PluginRegistry.unregister`: delete the slot when present, no-op
otherwise. -/
def PluginRegistry.unregister (reg : Registry) (name : String) : Registry :=
  if dictContains reg name then dictDel reg name else reg

/-- `PluginRegistry.get`. -/
def PluginRegistry.get (reg : Registry) (name : String) : Option TransformerPlugin :=
  dictGet reg name

/-- The five built-in plugin instances. -/
def flattenPlugin : TransformerPlugin :=
  { name := "flatten", transform := FlattenTransformer.transform }

def layerWeightedPlugin : TransformerPlugin :=
  { name := "layer_weighted", transform := LayerWeightedTransformer.transform }

def spiralPlugin : TransformerPlugin :=
  { name := "spiral", transform := SpiralTransformer.transform }

def normalizedPlugin : TransformerPlugin :=
  { name := "normalized", transform := NormalizedTransformer.transform }

def layerSeparatedPlugin : TransformerPlugin :=
  { name := "layer_separated", transform := LayerSeparatedTransformer.transform }

/-- `PluginRegistry.__init__` → `_load_builtin_plugins`: register the
five built-ins in order. -/
def initialRegistry : Registry :=
  (PluginRegistry.register
    (PluginRegistry.register
      (PluginRegistry.register
        (PluginRegistry.register
          (PluginRegistry.register [] (.plugin flattenPlugin)).1
          (.plugin layerWeightedPlugin)).1
        (.plugin spiralPlugin)).1
      (.plugin normalizedPlugin)).1
    (.plugin layerSeparatedPlugin)).1

/-- The inline fallback implementation at the bottom of
`to_neutral_grid` (a verbatim copy of the Flatten algorithm in
`transformer.py`). -/
def fallbackFlatten (tensors : TensorCollection) : Grid :=
  let flat0 := flatValues tensors
  let flat_values := if flat0 = [] then [0] else flat0
  squareFill flat_values

/-- `to_neutral_grid`: resolve the plugin by name (default/fallback
`"flatten"`, the unknown-name case is surfaced only as a printed
warning, never an exception — this function is total) and run its
pipeline; when even `"flatten"` is unregistered, run the inline
fallback. -/
def to_neutral_grid (reg : Registry) (tensors : TensorCollection)
    (plugin_name : Option String) : Grid :=
  let plugin : Option TransformerPlugin :=
    match plugin_name with
    | some n =>
      match PluginRegistry.get reg n with
      | some p => some p
      | none => PluginRegistry.get reg "flatten"
    | none => PluginRegistry.get reg "flatten"
  match plugin with
  | some p => p.call tensors
  | none => fallbackFlatten tensors

/-! ### Registry lemmas -/

theorem dictGet_map_replace (reg : Registry) (k : String) (v : TransformerPlugin)
    (h : dictContains reg k = true) :
    dictGet (reg.map (fun q => if q.1 = k then (k, v) else q)) k = some v := by
  unfold dictGet
  induction reg with
  | nil => simp [dictContains] at h
  | cons q rest ih =>
      by_cases hq : q.1 = k
      · rw [List.map_cons, if_pos hq]
        simp [List.find?]
      · rw [List.map_cons, if_neg hq]
        rw [List.find?_cons_of_neg _ (by simpa using hq)]
        apply ih
        unfold dictContains at h ⊢
        rw [List.any_cons] at h
        simpa [hq] using h

theorem dictGet_append_single (reg : Registry) (k : String) (v : TransformerPlugin)
    (h : ∀ q ∈ reg, ¬ (q.1 = k)) : dictGet (reg ++ [(k, v)]) k = some v := by
  unfold dictGet
  induction reg with
  | nil => simp [List.find?]
  | cons q rest ih =>
      rw [List.cons_append, List.find?_cons_of_neg _
        (by simpa using h q (List.mem_cons_self _ _))]
      exact ih (fun q' hq' => h q' (List.mem_cons_of_mem _ hq'))

theorem dictGet_dictSet_self (reg : Registry) (k : String) (v : TransformerPlugin) :
    dictGet (dictSet reg k v) k = some v := by
  unfold dictSet
  by_cases hc : dictContains reg k
  · rw [if_pos hc]
    exact dictGet_map_replace reg k v hc
  · rw [if_neg hc]
    apply dictGet_append_single
    intro q hq hqk
    apply hc
    unfold dictContains
    rw [List.any_eq_true]
    exact ⟨q, hq, by simpa using hqk⟩

theorem dictGet_dictDel_self (reg : Registry) (k : String) :
    dictGet (dictDel reg k) k = none := by
  unfold dictGet dictDel
  rw [Option.map_eq_none', List.find?_eq_none]
  intro q hq
  rw [List.mem_filter] at hq
  simpa using hq.2

theorem dictGet_none_not_contains (reg : Registry) (k : String)
    (h : dictGet reg k = none) : dictContains reg k = false := by
  unfold dictGet at h
  rw [Option.map_eq_none', List.find?_eq_none] at h
  unfold dictContains
  rw [Bool.eq_false_iff]
  intro hc
  rw [List.any_eq_true] at hc
  obtain ⟨q, hq, hqk⟩ := hc
  exact absurd hqk (by simpa using h q hq)

/-! ## The five built-in strategies as one selectable family -/

/-- The built-in strategy names, for claims quantifying over all
five. -/
inductive Strategy where
  | flatten
  | layerWeighted
  | spiral
  | normalized
  | layerSeparated
  deriving DecidableEq

/-- Dispatch a strategy to its `transform`. -/
def Strategy.transform : Strategy → TensorCollection → Grid
  | .flatten => FlattenTransformer.transform
  | .layerWeighted => LayerWeightedTransformer.transform
  | .spiral => SpiralTransformer.transform
  | .normalized => NormalizedTransformer.transform
  | .layerSeparated => LayerSeparatedTransformer.transform

/-! ### Absence insensitivity helpers -/

theorem filterMap_snd_absent (name : String) (tc1 tc2 : TensorCollection) :
    (tc1 ++ (name, none) :: tc2).filterMap Prod.snd
      = (tc1 ++ tc2).filterMap Prod.snd := by
  rw [List.filterMap_append, List.filterMap_append, List.filterMap_cons]

theorem flatValues_absent (name : String) (tc1 tc2 : TensorCollection) :
    flatValues (tc1 ++ (name, none) :: tc2) = flatValues (tc1 ++ tc2) := by
  unfold flatValues
  rw [filterMap_snd_absent]

theorem flatten_absent (name : String) (tc1 tc2 : TensorCollection) :
    FlattenTransformer.transform (tc1 ++ (name, none) :: tc2)
      = FlattenTransformer.transform (tc1 ++ tc2) := by
  simp only [FlattenTransformer.transform, flatValues_absent]

theorem spiral_absent (name : String) (tc1 tc2 : TensorCollection) :
    SpiralTransformer.transform (tc1 ++ (name, none) :: tc2)
      = SpiralTransformer.transform (tc1 ++ tc2) := by
  simp only [SpiralTransformer.transform, flatValues_absent]

theorem normalized_absent (name : String) (tc1 tc2 : TensorCollection) :
    NormalizedTransformer.transform (tc1 ++ (name, none) :: tc2)
      = NormalizedTransformer.transform (tc1 ++ tc2) := by
  simp only [NormalizedTransformer.transform, flatValues_absent]

theorem layerSeparated_absent (name : String) (tc1 tc2 : TensorCollection) :
    LayerSeparatedTransformer.transform (tc1 ++ (name, none) :: tc2)
      = LayerSeparatedTransformer.transform (tc1 ++ tc2) := by
  have hlg : layerGrids (tc1 ++ (name, none) :: tc2) = layerGrids (tc1 ++ tc2) := by
    unfold layerGrids
    rw [filterMap_snd_absent]
  have hne : tc1 ++ (name, none) :: tc2 ≠ [] := by
    intro hcon
    have := List.append_eq_nil.mp hcon
    exact absurd this.2 (List.cons_ne_nil _ _)
  by_cases hnil2 : tc1 ++ tc2 = []
  · have hlg2 : layerGrids (tc1 ++ tc2) = [] := by
      rw [hnil2]
      rfl
    simp only [LayerSeparatedTransformer.transform, hlg, hlg2]
    rw [if_neg hne, if_pos hnil2, if_pos trivial]
  · simp only [LayerSeparatedTransformer.transform, hlg]
    rw [if_neg hne, if_neg hnil2]

/-! ### Shape helpers used by the claims -/

theorem grid_row_index_of_mem (g : Grid) (row : List Val) (h : row ∈ g) :
    ∃ r, r < g.length ∧ g.getD r [] = row := by
  obtain ⟨r, hr, hrow⟩ := List.getElem_of_mem h
  exact ⟨r, hr, by rw [getD_of_lt _ _ _ hr]; exact hrow⟩

theorem squareFill_row_mem (vals : List Val) (row : List Val)
    (h : row ∈ squareFill vals) : row.length = ceilSqrt vals.length := by
  obtain ⟨r, hr, hrow⟩ := grid_row_index_of_mem _ _ h
  rw [squareFill_length] at hr
  rw [← hrow, squareFill_row_length vals r hr]

theorem layerGrids_length (tc : TensorCollection) :
    (layerGrids tc).length = (tc.filterMap Prod.snd).length := by
  simp [layerGrids]

theorem layerGrids_getD (tc : TensorCollection) (k : Nat)
    (hk : k < (tc.filterMap Prod.snd).length) :
    (layerGrids tc).getD k [] = subGridOf ((tc.filterMap Prod.snd).getD k []) := by
  have hk' : k < (layerGrids tc).length := by rw [layerGrids_length]; exact hk
  rw [getD_of_lt _ _ _ hk', getD_of_lt _ _ _ hk]
  simp [layerGrids]

theorem applyPlaces_zeros_row_mem (R C : Nat) (ps : List (Nat × Nat × Val))
    (row : List Val) (h : row ∈ applyPlaces (zerosGrid R C) ps) :
    row.length = C := by
  obtain ⟨r, hr, hrow⟩ := grid_row_index_of_mem _ _ h
  rw [applyPlaces_length, zerosGrid_length] at hr
  rw [← hrow, applyPlaces_row_length, zerosGrid_row_length _ _ _ hr]

theorem subGrid_row_mem (flat : List Val) (row : List Val)
    (h : row ∈ subGridOf flat) : row.length = ceilSqrt flat.length + 2 := by
  obtain ⟨r, hr, hrow⟩ := grid_row_index_of_mem _ _ h
  rw [subGrid_length] at hr
  rw [← hrow, subGrid_row_length flat r hr]

theorem contains_false_get_none (reg : Registry) (k : String)
    (h : dictContains reg k = false) : dictGet reg k = none := by
  unfold dictGet
  rw [Option.map_eq_none', List.find?_eq_none]
  intro q hq
  unfold dictContains at h
  rw [List.any_eq_false] at h
  exact h q hq

/-- The flat-value list actually placed by Flatten and Spiral: the
`[0.0]` substitution applies to an empty accumulation. -/
def substitutedFlat (tc : TensorCollection) : List Val :=
  if flatValues tc = [] then [0] else flatValues tc

theorem substitutedFlat_ne_nil (tc : TensorCollection) : substitutedFlat tc ≠ [] := by
  unfold substitutedFlat
  split
  · simp
  · assumption

theorem substitutedFlat_len_pos (tc : TensorCollection) :
    1 ≤ (substitutedFlat tc).length := by
  have := substitutedFlat_ne_nil tc
  cases h : substitutedFlat tc with
  | nil => exact absurd h this
  | cons v rest => simp

theorem spiralTransform_unfold (tc : TensorCollection) :
    SpiralTransformer.transform tc
      = applyPlaces
          (zerosGrid (ceilSqrt (substitutedFlat tc).length)
            (ceilSqrt (substitutedFlat tc).length))
          (((substitutedFlat tc).take
              (generateSpiral (ceilSqrt (substitutedFlat tc).length)).length).enum.map
            (fun iv =>
              (((generateSpiral (ceilSqrt (substitutedFlat tc).length)).getD iv.1 (0, 0)).1,
               ((generateSpiral (ceilSqrt (substitutedFlat tc).length)).getD iv.1 (0, 0)).2,
               iv.2))) := rfl

/-! ## Claim theorems -/

/-- C1: For every TensorCollection, the Flatten strategy returns an
S×S grid with S = ceil(sqrt(total_element_count)) where the non-absent
tensors' scalars, flattened in collection iteration order, are placed
row-major starting at cell (0,0) and all remaining cells are 0.0; in
particular the input with "a.weight" [[1,2],[3,4]] (flattened
[1,2,3,4]) and "a.bias" [5,6] yields the 3×3 grid 1..6 then zeros, and
the empty (or zero-scalars) collection yields the 1×1 grid [[0.0]]. -/
theorem C1_flatten_rowmajor_square :
    (∀ tc : TensorCollection, flatValues tc ≠ [] →
      (FlattenTransformer.transform tc).length = ceilSqrt (flatValues tc).length
      ∧ (∀ row ∈ FlattenTransformer.transform tc,
          row.length = ceilSqrt (flatValues tc).length)
      ∧ (∀ r c : Nat, r < ceilSqrt (flatValues tc).length
          → c < ceilSqrt (flatValues tc).length
          → gridGet (FlattenTransformer.transform tc) r c
            = if r * ceilSqrt (flatValues tc).length + c < (flatValues tc).length
              then (flatValues tc).getD (r * ceilSqrt (flatValues tc).length + c) 0
              else 0))
    ∧ (∀ tc : TensorCollection, flatValues tc = [] →
        FlattenTransformer.transform tc = [[0]])
    ∧ FlattenTransformer.transform
        [("a.weight", some [1, 2, 3, 4]), ("a.bias", some [5, 6])]
      = [[1, 2, 3], [4, 5, 6], [0, 0, 0]]
    ∧ FlattenTransformer.transform [] = [[0]] := by
  refine ⟨?_, ?_, ?_, ?_⟩
  · intro tc h
    rw [flatten_of_ne_empty tc h]
    exact ⟨squareFill_length _, fun row hrow => squareFill_row_mem _ _ hrow,
      fun r c hr hc => squareFill_cell _ r c hr hc⟩
  · exact fun tc h => flatten_of_empty tc h
  · decide
  · decide

theorem C1_flatten_rowmajor_square_witness :
    flatValues [(("a.weight" : String), some ([1, 2, 3, 4] : List Val)),
        ("a.bias", some [5, 6])] ≠ []
    ∧ gridGet (FlattenTransformer.transform
        [("a.weight", some [1, 2, 3, 4]), ("a.bias", some [5, 6])]) 1 2
      = (if 1 * ceilSqrt (flatValues [(("a.weight" : String), some ([1, 2, 3, 4] : List Val)),
            ("a.bias", some [5, 6])]).length + 2
          < (flatValues [(("a.weight" : String), some ([1, 2, 3, 4] : List Val)),
              ("a.bias", some [5, 6])]).length
        then (flatValues [(("a.weight" : String), some ([1, 2, 3, 4] : List Val)),
            ("a.bias", some [5, 6])]).getD
          (1 * ceilSqrt (flatValues [(("a.weight" : String), some ([1, 2, 3, 4] : List Val)),
            ("a.bias", some [5, 6])]).length + 2) 0
        else 0) :=
  ⟨by decide,
    (C1_flatten_rowmajor_square.1
      [("a.weight", some [1, 2, 3, 4]), ("a.bias", some [5, 6])] (by decide)).2.2
      1 2 (by decide) (by decide)⟩

/-- C2: For every TensorCollection, the LayerWeighted strategy's
output grid equals the Flatten strategy's output grid (including
empty, all-absent, and zero-element inputs). -/
theorem C2_layer_weighted_equals_flatten (tc : TensorCollection) :
    LayerWeightedTransformer.transform tc = FlattenTransformer.transform tc :=
  layerWeighted_eq_flatten tc

/-- C6: For every built-in strategy and every TensorCollection, the
grid produced from a collection in which one entry's value is absent
equals the grid produced from the same collection with that entry
removed entirely. -/
theorem C6_absent_equals_removed (s : Strategy) (name : String)
    (tc1 tc2 : TensorCollection) :
    s.transform (tc1 ++ (name, none) :: tc2) = s.transform (tc1 ++ tc2) := by
  cases s with
  | flatten => exact flatten_absent name tc1 tc2
  | layerWeighted =>
      show LayerWeightedTransformer.transform _ = LayerWeightedTransformer.transform _
      rw [layerWeighted_eq_flatten, layerWeighted_eq_flatten]
      exact flatten_absent name tc1 tc2
  | spiral => exact spiral_absent name tc1 tc2
  | normalized => exact normalized_absent name tc1 tc2
  | layerSeparated => exact layerSeparated_absent name tc1 tc2

/-- C3: For every TensorCollection, the Spiral strategy builds an
S×S zero grid with S = ceil(sqrt(total_element_count)) (after the
`[0.0]` substitution on empty input), generates a coordinate path
starting at (S/2, S/2) walking right, down, left, up with leg lengths
increasing by one after every two legs and recording only in-bounds
coordinates (`generateSpiral`, embedded verbatim from
`_generate_spiral`), and places exactly the first
min(element_count, len(path)) flattened scalars onto the path's
coordinates in order; cells not receiving one of those scalars are 0:
nothing is wrapped or duplicated. -/
theorem C3_spiral_center_out (tc : TensorCollection) :
    (SpiralTransformer.transform tc).length = ceilSqrt (substitutedFlat tc).length
    ∧ (∀ row ∈ SpiralTransformer.transform tc,
        row.length = ceilSqrt (substitutedFlat tc).length)
    ∧ (generateSpiral (ceilSqrt (substitutedFlat tc).length)).getD 0 (0, 0)
        = (ceilSqrt (substitutedFlat tc).length / 2,
           ceilSqrt (substitutedFlat tc).length / 2)
    ∧ (∀ i : Nat, i < min (substitutedFlat tc).length
          (generateSpiral (ceilSqrt (substitutedFlat tc).length)).length →
        gridGet (SpiralTransformer.transform tc)
            ((generateSpiral (ceilSqrt (substitutedFlat tc).length)).getD i (0, 0)).1
            ((generateSpiral (ceilSqrt (substitutedFlat tc).length)).getD i (0, 0)).2
          = (substitutedFlat tc).getD i 0)
    ∧ (∀ r c : Nat,
        (∀ i : Nat, i < min (substitutedFlat tc).length
            (generateSpiral (ceilSqrt (substitutedFlat tc).length)).length →
          (generateSpiral (ceilSqrt (substitutedFlat tc).length)).getD i (0, 0) ≠ (r, c)) →
        gridGet (SpiralTransformer.transform tc) r c = 0) := by
  have hpos : 1 ≤ (substitutedFlat tc).length := substitutedFlat_len_pos tc
  have hS : 1 ≤ ceilSqrt (substitutedFlat tc).length := ceilSqrt_pos _ (by omega)
  have hle : (substitutedFlat tc).length
      ≤ ceilSqrt (substitutedFlat tc).length * ceilSqrt (substitutedFlat tc).length :=
    le_ceilSqrt_sq _
  obtain ⟨_, hlen, _, _⟩ := generateSpiral_spec (ceilSqrt (substitutedFlat tc).length) hS
  have hmin : min (substitutedFlat tc).length
      (generateSpiral (ceilSqrt (substitutedFlat tc).length)).length
      = (substitutedFlat tc).length := by
    rw [hlen]
    omega
  obtain ⟨hfill, huntouched⟩ :=
    spiral_fill_spec (ceilSqrt (substitutedFlat tc).length) hS (substitutedFlat tc) hle
  refine ⟨?_, ?_, ?_, ?_, ?_⟩
  · rw [spiralTransform_unfold, applyPlaces_length, zerosGrid_length]
  · intro row hrow
    rw [spiralTransform_unfold] at hrow
    exact applyPlaces_zeros_row_mem _ _ _ _ hrow
  · rw [generateSpiral_eq _ hS]
    rfl
  · intro i hi
    rw [hmin] at hi
    rw [spiralTransform_unfold]
    exact hfill i hi
  · intro r c hnone
    rw [hmin] at hnone
    rw [spiralTransform_unfold]
    exact huntouched r c hnone

theorem C3_spiral_center_out_witness :
    (0 < min (substitutedFlat [(("a" : String), some ([1, 2, 3, 4, 5] : List Val))]).length
      (generateSpiral (ceilSqrt (substitutedFlat
        [(("a" : String), some ([1, 2, 3, 4, 5] : List Val))]).length)).length)
    ∧ gridGet (SpiralTransformer.transform [(("a" : String), some ([1, 2, 3, 4, 5] : List Val))])
        ((generateSpiral (ceilSqrt (substitutedFlat
          [(("a" : String), some ([1, 2, 3, 4, 5] : List Val))]).length)).getD 0 (0, 0)).1
        ((generateSpiral (ceilSqrt (substitutedFlat
          [(("a" : String), some ([1, 2, 3, 4, 5] : List Val))]).length)).getD 0 (0, 0)).2
      = (substitutedFlat [(("a" : String), some ([1, 2, 3, 4, 5] : List Val))]).getD 0 0 :=
  ⟨by decide,
    (C3_spiral_center_out [(("a" : String), some ([1, 2, 3, 4, 5] : List Val))]).2.2.2.1
      0 (by decide)⟩

/-- C4: For every TensorCollection with at least one scalar element,
the Normalized strategy jointly min-max rescales all flattened scalars
to [0,1] before row-major placement into the S×S grid, except that
when max - min ≤ 1e-6 the values are placed unrescaled; for an empty
or all-absent collection it returns a 1×1 zero grid.  In particular
the single-tensor input [0,0,10] yields the 2×2 grid 0,0,1 row-major
with one padding zero. -/
theorem C4_normalized_joint_minmax :
    (∀ tc : TensorCollection, flatValues tc ≠ [] →
      (NormalizedTransformer.transform tc).length = ceilSqrt (flatValues tc).length
      ∧ (∀ row ∈ NormalizedTransformer.transform tc,
          row.length = ceilSqrt (flatValues tc).length)
      ∧ (∀ r c : Nat, r < ceilSqrt (flatValues tc).length
          → c < ceilSqrt (flatValues tc).length
          → gridGet (NormalizedTransformer.transform tc) r c
            = if r * ceilSqrt (flatValues tc).length + c < (flatValues tc).length
              then (if normEps < listMax (flatValues tc) - listMin (flatValues tc)
                then (flatValues tc).map
                  (fun v => (v - listMin (flatValues tc))
                    / (listMax (flatValues tc) - listMin (flatValues tc)))
                else flatValues tc).getD
                (r * ceilSqrt (flatValues tc).length + c) 0
              else 0)
      ∧ (normEps < listMax (flatValues tc) - listMin (flatValues tc) →
          ∀ v ∈ flatValues tc,
            0 ≤ (v - listMin (flatValues tc))
                / (listMax (flatValues tc) - listMin (flatValues tc))
            ∧ (v - listMin (flatValues tc))
                / (listMax (flatValues tc) - listMin (flatValues tc)) ≤ 1))
    ∧ (∀ tc : TensorCollection, flatValues tc = [] →
        NormalizedTransformer.transform tc = [[0]])
    ∧ NormalizedTransformer.transform [("w", some [0, 0, 10])]
        = [[0, 0], [1, 0]] := by
  refine ⟨?_, ?_, ?_⟩
  · intro tc h
    have hlenva : (if normEps < listMax (flatValues tc) - listMin (flatValues tc)
        then (flatValues tc).map
          (fun v => (v - listMin (flatValues tc))
            / (listMax (flatValues tc) - listMin (flatValues tc)))
        else flatValues tc).length = (flatValues tc).length := by
      split <;> simp
    refine ⟨?_, ?_, ?_, ?_⟩
    · rw [normalized_of_ne_empty tc h, squareFill_length, hlenva]
    · intro row hrow
      rw [normalized_of_ne_empty tc h] at hrow
      rw [squareFill_row_mem _ _ hrow, hlenva]
    · intro r c hr hc
      rw [normalized_of_ne_empty tc h]
      have hcell := squareFill_cell
        (if normEps < listMax (flatValues tc) - listMin (flatValues tc)
         then (flatValues tc).map
           (fun v => (v - listMin (flatValues tc))
             / (listMax (flatValues tc) - listMin (flatValues tc)))
         else flatValues tc) r c (by rw [hlenva]; exact hr) (by rw [hlenva]; exact hc)
      rw [hlenva] at hcell
      exact hcell
    · intro hgt v hv
      have hlt : listMin (flatValues tc) < listMax (flatValues tc) := by
        have : (0 : Val) < normEps := by norm_num [normEps]
        linarith
      exact normalized_value_mem_unit (flatValues tc) v hv hlt
  · exact fun tc h => normalized_of_empty tc h
  · have h1 : flatValues [(("w" : String), some ([0, 0, 10] : List Val))]
        = [0, 0, 10] := rfl
    have hne : flatValues [(("w" : String), some ([0, 0, 10] : List Val))] ≠ [] := by
      rw [h1]
      simp
    rw [normalized_of_ne_empty _ hne, h1]
    have hmin : listMin [(0 : Val), 0, 10] = 0 := by
      show min (min 0 0) 10 = 0
      norm_num
    have hmax : listMax [(0 : Val), 0, 10] = 10 := by
      show max (max 0 0) 10 = 10
      norm_num
    rw [hmin, hmax]
    rw [if_pos (by norm_num [normEps])]
    have hmap : ([(0 : Val), 0, 10]).map (fun v => (v - 0) / (10 - 0)) = [0, 0, 1] := by
      simp only [List.map_cons, List.map_nil]
      norm_num
    rw [hmap]
    decide

theorem C4_normalized_joint_minmax_witness :
    flatValues [(("w" : String), some ([0, 0, 10] : List Val))] ≠ []
    ∧ (NormalizedTransformer.transform [(("w" : String), some ([0, 0, 10] : List Val))]).length
      = ceilSqrt (flatValues [(("w" : String), some ([0, 0, 10] : List Val))]).length :=
  ⟨by decide,
    ((C4_normalized_joint_minmax.1 [(("w" : String), some ([0, 0, 10] : List Val))]
      (by decide))).1⟩

/-- C10: For every grid size S ≥ 1, the Spiral strategy's coordinate
generator terminates (the fueled `while` loop returns the same list
for every fuel past the bound, via the early `return`) and returns a
path of exactly S·S distinct in-bounds coordinates covering every cell
of the S×S grid; consequently, since total_element_count ≤ S·S by
construction of S, `flat_values[:len(coords)]` is the whole input and
the element-dropping branch is never actually taken. -/
theorem C10_spiral_path_complete (S : Nat) (hS : 1 ≤ S) :
    (∀ fuel : Nat, 2 * (S / 2 + 1) ≤ fuel →
      spiralRounds S fuel ((S / 2 : Nat) : ℤ) ((S / 2 : Nat) : ℤ) 0 1 [(S / 2, S / 2)]
        = generateSpiral S)
    ∧ (generateSpiral S).length = S * S
    ∧ (generateSpiral S).Nodup
    ∧ (∀ q ∈ generateSpiral S, q.1 < S ∧ q.2 < S)
    ∧ (∀ i j : Nat, i < S → j < S → (i, j) ∈ generateSpiral S)
    ∧ (∀ tc : TensorCollection,
        (substitutedFlat tc).length
            ≤ (generateSpiral (ceilSqrt (substitutedFlat tc).length)).length
        ∧ min (substitutedFlat tc).length
              (generateSpiral (ceilSqrt (substitutedFlat tc).length)).length
            = (substitutedFlat tc).length
        ∧ (substitutedFlat tc).take
              (generateSpiral (ceilSqrt (substitutedFlat tc).length)).length
            = substitutedFlat tc) := by
  obtain ⟨hnd, hlen, hbox, hcov⟩ := generateSpiral_spec S hS
  refine ⟨fun fuel hf => spiral_fuel_irrelevant S hS fuel hf, hlen, hnd, hbox, hcov, ?_⟩
  intro tc
  have hpos : 1 ≤ (substitutedFlat tc).length := substitutedFlat_len_pos tc
  have hS' : 1 ≤ ceilSqrt (substitutedFlat tc).length := ceilSqrt_pos _ (by omega)
  have hle : (substitutedFlat tc).length
      ≤ ceilSqrt (substitutedFlat tc).length * ceilSqrt (substitutedFlat tc).length :=
    le_ceilSqrt_sq _
  obtain ⟨_, hlen', _, _⟩ := generateSpiral_spec (ceilSqrt (substitutedFlat tc).length) hS'
  refine ⟨by omega, by omega, ?_⟩
  apply List.take_of_length_le
  omega

theorem C10_spiral_path_complete_witness :
    1 ≤ 3 ∧ (generateSpiral 3).length = 3 * 3 :=
  ⟨by decide, (C10_spiral_path_complete 3 (by decide)).2.1⟩

/-- C5: For every TensorCollection, the LayerSeparated strategy places
each non-absent tensor's scalars row-major into an (s+2)×(s+2)
sub-grid with s = ceil(sqrt(count)) and a 1-cell zero border, then
tiles the n sub-grids into cols = ceil(sqrt(n)) columns and
rows = ceil(n/cols) rows, each tile cell sized to the maximum sub-grid
height and width, with sub-grids top/left-aligned (tile k's sub-grid
cell (r, c) lands at (k/cols·max_h + r, k%cols·max_w + c)) and the
remainder zero; an empty or all-absent collection yields a 1×1 zero
grid. -/
theorem C5_layer_separated_tiling :
    (∀ tc : TensorCollection, tc.filterMap Prod.snd = [] →
        LayerSeparatedTransformer.transform tc = [[0]])
    ∧ (∀ flat : List Val,
        (subGridOf flat).length = ceilSqrt flat.length + 2
        ∧ (∀ row ∈ subGridOf flat, row.length = ceilSqrt flat.length + 2)
        ∧ (∀ r c : Nat, r < ceilSqrt flat.length → c < ceilSqrt flat.length →
            gridGet (subGridOf flat) (r + 1) (c + 1)
              = if r * ceilSqrt flat.length + c < flat.length
                then flat.getD (r * ceilSqrt flat.length + c) 0 else 0)
        ∧ (∀ r' c' : Nat, (r' = 0 ∨ r' = ceilSqrt flat.length + 1
            ∨ c' = 0 ∨ c' = ceilSqrt flat.length + 1) →
            gridGet (subGridOf flat) r' c' = 0))
    ∧ (∀ tc : TensorCollection, layerGrids tc ≠ [] →
        (layerGrids tc).length = (tc.filterMap Prod.snd).length
        ∧ lsCols tc = ceilSqrt (layerGrids tc).length
        ∧ lsRows tc = ceilDivNat (layerGrids tc).length (lsCols tc)
        ∧ (LayerSeparatedTransformer.transform tc).length = lsRows tc * lsMaxH tc
        ∧ (∀ row ∈ LayerSeparatedTransformer.transform tc,
            row.length = lsCols tc * lsMaxW tc)
        ∧ (∀ sub ∈ layerGrids tc, sub.length ≤ lsMaxH tc
            ∧ (sub.getD 0 []).length ≤ lsMaxW tc)
        ∧ (∀ k : Nat, k < (layerGrids tc).length →
            (layerGrids tc).getD k [] = subGridOf ((tc.filterMap Prod.snd).getD k [])
            ∧ (∀ r c : Nat, r < ((layerGrids tc).getD k []).length
                → c < (((layerGrids tc).getD k []).getD r []).length →
                gridGet (LayerSeparatedTransformer.transform tc)
                    (k / lsCols tc * lsMaxH tc + r) (k % lsCols tc * lsMaxW tc + c)
                  = gridGet ((layerGrids tc).getD k []) r c))
        ∧ (∀ R C : Nat, (∀ k : Nat, k < (layerGrids tc).length
            → ∀ r : Nat, r < ((layerGrids tc).getD k []).length
            → ∀ c : Nat, c < (((layerGrids tc).getD k []).getD r []).length
            → (R, C) ≠ (k / lsCols tc * lsMaxH tc + r,
                k % lsCols tc * lsMaxW tc + c)) →
            gridGet (LayerSeparatedTransformer.transform tc) R C = 0)) := by
  refine ⟨fun tc h => layerSeparated_of_empty tc h, ?_, ?_⟩
  · intro flat
    exact ⟨subGrid_length flat, fun row hrow => subGrid_row_mem flat row hrow,
      fun r c hr hc => subGrid_cell flat r c hr hc,
      fun r' c' h => subGrid_border flat r' c' h⟩
  · intro tc hne
    refine ⟨layerGrids_length tc, rfl, rfl, layerSeparated_length tc hne, ?_, ?_, ?_, ?_⟩
    · intro row hrow
      rw [layerSeparated_of_ne tc hne] at hrow
      exact applyPlaces_zeros_row_mem _ _ _ _ hrow
    · intro sub hsub
      exact ⟨layerGrids_height_le tc sub hsub,
        layerGrids_width_le tc sub hsub 0 (Nat.zero_le _)⟩
    · intro k hk
      refine ⟨layerGrids_getD tc k (by rw [← layerGrids_length]; exact hk), ?_⟩
      intro r c hr hc
      exact layerSeparated_tile_cell tc hne k hk r c hr hc
    · intro R C h
      exact layerSeparated_tile_zero tc hne R C h

theorem C5_layer_separated_tiling_witness :
    layerGrids [(("a" : String), some ([1] : List Val)), ("b", some [2])] ≠ []
    ∧ (LayerSeparatedTransformer.transform
        [(("a" : String), some ([1] : List Val)), ("b", some [2])]).length
      = lsRows [(("a" : String), some ([1] : List Val)), ("b", some [2])]
        * lsMaxH [(("a" : String), some ([1] : List Val)), ("b", some [2])] :=
  ⟨by decide,
    (C5_layer_separated_tiling.2.2
      [(("a" : String), some ([1] : List Val)), ("b", some [2])] (by decide)).2.2.2.1⟩

/-- C7: For every TensorCollection, calling `to_neutral_grid` with a
plugin name that is not registered returns the same grid as calling it
with plugin name "flatten" on the same input; the unknown name is
surfaced only as a printed warning — the embedded function is total
and raises nothing. -/
theorem C7_unknown_plugin_falls_back (reg : Registry) (tc : TensorCollection)
    (name : String) (h : PluginRegistry.get reg name = none) :
    to_neutral_grid reg tc (some name) = to_neutral_grid reg tc (some "flatten") := by
  simp only [to_neutral_grid]
  rw [h]
  cases hf : PluginRegistry.get reg "flatten" with
  | none => rfl
  | some p => rfl

theorem C7_unknown_plugin_falls_back_witness :
    PluginRegistry.get initialRegistry "doesnotexist" = none
    ∧ to_neutral_grid initialRegistry [(("a.weight" : String), some ([1, 2] : List Val))]
        (some "doesnotexist")
      = to_neutral_grid initialRegistry [(("a.weight" : String), some ([1, 2] : List Val))]
        (some "flatten") :=
  ⟨rfl, C7_unknown_plugin_falls_back initialRegistry
    [(("a.weight" : String), some ([1, 2] : List Val))] "doesnotexist" rfl⟩

/-- C8: On every registry, registering a plugin named "x" and then
calling get("x") returns a plugin whose name equals "x"; unregister
of "x" followed by get("x") returns null; unregister of an absent name
is a no-op on the registry. -/
theorem C8_registry_roundtrip :
    (∀ (reg : Registry) (p : TransformerPlugin),
      ∃ q, PluginRegistry.get (PluginRegistry.register reg (.plugin p)).1 p.name = some q
        ∧ q.name = p.name)
    ∧ (∀ (reg : Registry) (x : String),
        PluginRegistry.get (PluginRegistry.unregister reg x) x = none)
    ∧ (∀ (reg : Registry) (x : String), PluginRegistry.get reg x = none →
        PluginRegistry.unregister reg x = reg) := by
  refine ⟨?_, ?_, ?_⟩
  · intro reg p
    exact ⟨p, dictGet_dictSet_self reg p.name p, rfl⟩
  · intro reg x
    unfold PluginRegistry.unregister
    by_cases hc : dictContains reg x
    · rw [if_pos hc]
      exact dictGet_dictDel_self reg x
    · rw [if_neg hc]
      apply contains_false_get_none
      rw [Bool.eq_false_iff]
      exact hc
  · intro reg x h
    unfold PluginRegistry.unregister
    rw [if_neg (by rw [dictGet_none_not_contains reg x h]; simp)]

theorem C8_registry_roundtrip_witness :
    PluginRegistry.get initialRegistry "doesnotexist" = none
    ∧ PluginRegistry.unregister initialRegistry "doesnotexist" = initialRegistry :=
  ⟨rfl, C8_registry_roundtrip.2.2 initialRegistry "doesnotexist" rfl⟩

/-- C9: `register(plugin)` returns a TypeError-kind error, leaving the
registry unchanged, if and only if the argument does not satisfy the
plugin contract (is not a `TransformerPlugin` instance); otherwise it
inserts or overwrites the slot at `plugin.name`, so registering two
plugins with the same name leaves the last registered one in that
slot. -/
theorem C9_register_contract :
    (∀ (reg : Registry) (arg : RegisterArg),
      (PluginRegistry.register reg arg).2.isSome = true ↔ arg = RegisterArg.notPlugin)
    ∧ (∀ reg : Registry, (PluginRegistry.register reg RegisterArg.notPlugin).1 = reg)
    ∧ (∀ (reg : Registry) (p : TransformerPlugin),
        PluginRegistry.register reg (.plugin p) = (dictSet reg p.name p, none))
    ∧ (∀ (reg : Registry) (p q : TransformerPlugin), q.name = p.name →
        PluginRegistry.get
          (PluginRegistry.register
            (PluginRegistry.register reg (.plugin p)).1 (.plugin q)).1 p.name
          = some q) := by
  refine ⟨?_, fun reg => rfl, fun reg p => rfl, ?_⟩
  · intro reg arg
    cases arg with
    | plugin p =>
        simp only [PluginRegistry.register, Option.isSome_none]
        constructor
        · intro hcon
          exact absurd hcon (by simp)
        · intro hcon
          cases hcon
    | notPlugin => simp [PluginRegistry.register]
  · intro reg p q hname
    show PluginRegistry.get (dictSet (dictSet reg p.name p) q.name q) p.name = some q
    rw [hname]
    exact dictGet_dictSet_self _ _ _

theorem C9_register_contract_witness :
    spiralPlugin.name = spiralPlugin.name
    ∧ PluginRegistry.get
        (PluginRegistry.register
          (PluginRegistry.register [] (.plugin spiralPlugin)).1 (.plugin spiralPlugin)).1
        spiralPlugin.name
      = some spiralPlugin :=
  ⟨rfl, C9_register_contract.2.2.2 [] spiralPlugin spiralPlugin rfl⟩

end Torch2Grid
